import Mathlib

/-!
# fwrot: a shallow embedding of the log-rotation engine

The development follows `rotator.go` and `options.go`.

* A Go string is a byte sequence; it is represented by the list of its bytes,
  each byte written as the character with that code (`List Char`).
* A `time.Time` is an instant (Unix seconds and nanoseconds) together with a
  `Location`; the calendar fields are computed from the instant shifted by the
  zone offset, on the proleptic Gregorian calendar, as Go's `time` package does.
* Machine integers are `Int` with explicit wrap-around where the code adds them.
* The file system enters as data: the result of the seek on the active file, the
  content of the control file, and the files and directories that `filepath.Walk`
  hands to the callback with a nil error. A slice or index expression out of range
  is a panic of the scan.
-/

namespace Fwrot

/-! ## Decimal output (`time.appendInt`, `strconv.Itoa`) -/

/-- The decimal digit character of `d % 10`. -/
def digitChar (d : Nat) : Char :=
  match d % 10 with
  | 0 => '0'
  | 1 => '1'
  | 2 => '2'
  | 3 => '3'
  | 4 => '4'
  | 5 => '5'
  | 6 => '6'
  | 7 => '7'
  | 8 => '8'
  | _ => '9'

/-- The value of a decimal digit character (0 for `'0'`, ..., 9 for `'9'`). -/
def digitVal (c : Char) : Nat := c.toNat - 48

/-- Whether a byte is an ASCII decimal digit (the regexp class `\d`). -/
def isDigit (c : Char) : Bool := decide (48 ≤ c.toNat) && decide (c.toNat ≤ 57)

/-- The decimal digits of `n`, most significant first; `fuel` bounds the number of digits. -/
def digitsFuel : Nat → Nat → List Char
  | 0, _ => []
  | fuel + 1, n =>
    if n < 10 then [digitChar n] else digitsFuel fuel (n / 10) ++ [digitChar n]

/-- Unsigned decimal rendering, without padding. -/
def utod (n : Nat) : List Char := digitsFuel (n + 1) n

/-- Go `time.appendInt(b, x, width)`: a minus sign for a negative `x`, then the decimal
digits of its magnitude, left-padded with zeros to `width`. -/
def appendInt (x : Int) (width : Nat) : List Char :=
  let ds := utod x.natAbs
  let body := List.replicate (width - ds.length) '0' ++ ds
  if x < 0 then '-' :: body else body

/-- The value of a string of decimal digits. -/
def ofDigits (cs : List Char) : Nat := cs.foldl (fun a c => 10 * a + digitVal c) 0

/-! ## Go `time`: locations, instants and calendar fields -/

/-- A time zone: the offset (seconds east of UTC) in force before the first
transition, and the transitions `(from Unix second, offset)` in ascending order. -/
structure Location where
  base : Int
  trans : List (Int × Int)
  deriving DecidableEq, Repr

/-- The offset in force at Unix second `sec`: that of the last transition not after `sec`. -/
def Location.lookup (l : Location) (sec : Int) : Int :=
  l.trans.foldl (fun off tr => if tr.1 ≤ sec then tr.2 else off) l.base

/-- Go `time.UTC`. -/
def utcLoc : Location := ⟨0, []⟩

/-- Go `time.FixedZone(_, offset)`. -/
def fixedZone (offset : Int) : Location := ⟨offset, []⟩

/-- Go `time.Time`: Unix seconds, nanoseconds within the second, and the location
in which the instant is displayed. -/
structure Time where
  sec : Int
  nsec : Nat
  loc : Location
  deriving DecidableEq, Repr

/-- Go `t.UTC()`: the same instant, displayed in UTC. -/
def Time.UTC (t : Time) : Time := { t with loc := utcLoc }

/-- Go `t.In(loc)`: the same instant, displayed in `loc`. -/
def Time.In (t : Time) (loc : Location) : Time := { t with loc := loc }

/-- Go `t.Unix()`. -/
def Time.Unix (t : Time) : Int := t.sec

/-- Go `time.Unix(sec, 0)` (Go returns it in the local zone; `In` is applied by the caller). -/
def unixTime (sec : Int) (loc : Location) : Time := ⟨sec, 0, loc⟩

/-- Unix second of the zero `time.Time` (January 1, year 1, 00:00:00 UTC). -/
def zeroSec : Int := -62135596800

/-- The zero value `time.Time{}`. -/
def zeroTime : Time := ⟨zeroSec, 0, utcLoc⟩

/-- Go `t.IsZero()`. -/
def Time.IsZero (t : Time) : Bool := decide (t.sec = zeroSec) && decide (t.nsec = 0)

/-- Go `t.Equal(u)`: the same instant, whatever the locations. -/
def Time.Equal (t u : Time) : Bool := decide (t.sec = u.sec) && decide (t.nsec = u.nsec)

/-- Go `t.After(u)`. -/
def Time.After (t u : Time) : Bool :=
  decide (t.sec > u.sec) || (decide (t.sec = u.sec) && decide (t.nsec > u.nsec))

/-- Go `t.Before(u)`. -/
def Time.Before (t u : Time) : Bool :=
  decide (t.sec < u.sec) || (decide (t.sec = u.sec) && decide (t.nsec < u.nsec))

/-- Zone offset in force at `t`, in seconds east of UTC. -/
def Time.offset (t : Time) : Int := t.loc.lookup t.sec

/-- Seconds since the Unix epoch on the wall clock of `t`'s location. -/
def Time.localSec (t : Time) : Int := t.sec + t.offset

/-- Days since 1970-01-01 on the wall clock of `t`'s location. -/
def Time.dayNumber (t : Time) : Int := t.localSec / 86400

/-- Day within the 400-year era starting on a March 1st, `0 ≤ · < 146097`. -/
def dayOfEra (z : Int) : Int := (z + 719468) % 146097

/-- Year within the era, `0 ≤ · < 400`. -/
def yearOfEra (z : Int) : Int :=
  (dayOfEra z - dayOfEra z / 1460 + dayOfEra z / 36524 - dayOfEra z / 146096) / 365

/-- Day within the year that starts on March 1st, `0 ≤ · ≤ 365`. -/
def dayOfMarchYear (z : Int) : Int :=
  dayOfEra z - (365 * yearOfEra z + yearOfEra z / 4 - yearOfEra z / 100)

/-- Month index counted from March, `0 ≤ · ≤ 11`. -/
def marchMonth (z : Int) : Int := (5 * dayOfMarchYear z + 2) / 153

/-- Day of the month of day number `z`. -/
def civilDay (z : Int) : Int := dayOfMarchYear z - (153 * marchMonth z + 2) / 5 + 1

/-- Month (1..12) of day number `z`. -/
def civilMonth (z : Int) : Int :=
  if marchMonth z < 10 then marchMonth z + 3 else marchMonth z - 9

/-- Year of day number `z`. -/
def civilYear (z : Int) : Int :=
  yearOfEra z + (z + 719468) / 146097 * 400 + (if civilMonth z ≤ 2 then 1 else 0)

/-- Day number (days since 1970-01-01) of the civil date `y-m-d`. -/
def daysFromCivil (y m d : Int) : Int :=
  let y1 := if m ≤ 2 then y - 1 else y
  let yoe := y1 % 400
  let doy := (153 * (if m > 2 then m - 3 else m + 9) + 2) / 5 + d - 1
  y1 / 400 * 146097 + (yoe * 365 + yoe / 4 - yoe / 100 + doy) - 719468

/-- Go `t.Year()`. -/
def Time.Year (t : Time) : Int := civilYear t.dayNumber

/-- Go `t.Month()`. -/
def Time.Month (t : Time) : Int := civilMonth t.dayNumber

/-- Go `t.Day()`. -/
def Time.Day (t : Time) : Int := civilDay t.dayNumber

/-- Go `t.Hour()`. -/
def Time.Hour (t : Time) : Int := t.localSec % 86400 / 3600

/-- Go `t.Minute()`. -/
def Time.Minute (t : Time) : Int := t.localSec % 3600 / 60

/-- Go `t.Second()`. -/
def Time.Second (t : Time) : Int := t.localSec % 60

/-- Go `t.Weekday()`, Sunday = 0 (1970-01-01 was a Thursday). -/
def Time.Weekday (t : Time) : Int := (t.dayNumber + 4) % 7

/-- Go `t.ISOWeek()`: move to the Thursday of the week of `t` (weeks start on Monday),
then take that day's year and `yday / 7 + 1`. -/
def Time.ISOWeek (t : Time) : Int × Int :=
  let d0 := 4 - t.Weekday
  let d := if d0 = 4 then -3 else d0
  let th := t.dayNumber + d
  let year := civilYear th
  let yday := th - daysFromCivil year 1 1
  (year, yday / 7 + 1)

/-- The pieces of a Go layout string that the program uses. -/
inductive Chunk where
  | stdLongYear
  | stdZeroMonth
  | stdZeroDay
  | stdHour
  | stdZeroMinute
  | stdZeroSecond
  | stdISO8601TZ
  | lit (c : Char)
  deriving DecidableEq, Repr

/-- Go `Format` of the chunk `Z0700`: `Z` for a zero offset, otherwise the sign and the
offset in hours and minutes (Go integer division truncates toward zero). -/
def formatZone (offset : Int) : List Char :=
  if offset = 0 then ['Z']
  else
    let zone := Int.tdiv offset 60
    if zone < 0 then
      '-' :: (appendInt (Int.tdiv (-zone) 60) 2 ++ appendInt (Int.tmod (-zone) 60) 2)
    else
      '+' :: (appendInt (Int.tdiv zone 60) 2 ++ appendInt (Int.tmod zone 60) 2)

/-- Go `Format` of one layout chunk. -/
def Time.formatChunk (t : Time) : Chunk → List Char
  | .stdLongYear => appendInt t.Year 4
  | .stdZeroMonth => appendInt t.Month 2
  | .stdZeroDay => appendInt t.Day 2
  | .stdHour => appendInt t.Hour 2
  | .stdZeroMinute => appendInt t.Minute 2
  | .stdZeroSecond => appendInt t.Second 2
  | .stdISO8601TZ => formatZone t.offset
  | .lit c => [c]

/-- Go `t.Format(layout)`, the layout given as its chunks. -/
def Time.Format (t : Time) : List Chunk → List Char
  | [] => []
  | c :: cs => t.formatChunk c ++ t.Format cs

/-- Layout `"2006-01-02 15:04"`. -/
def layoutMinute : List Chunk :=
  [.stdLongYear, .lit '-', .stdZeroMonth, .lit '-', .stdZeroDay, .lit ' ', .stdHour, .lit ':',
    .stdZeroMinute]

/-- Layout `"2006-01-02 15"`. -/
def layoutHour : List Chunk :=
  [.stdLongYear, .lit '-', .stdZeroMonth, .lit '-', .stdZeroDay, .lit ' ', .stdHour]

/-- Layout `"2006-01-02"`. -/
def layoutDay : List Chunk :=
  [.stdLongYear, .lit '-', .stdZeroMonth, .lit '-', .stdZeroDay]

/-- Layout `"2006-01"`. -/
def layoutMonth : List Chunk := [.stdLongYear, .lit '-', .stdZeroMonth]

/-- Go `strconv.Itoa` / the `%v` verb of `fmt` on an `int`. -/
def itoa (x : Int) : List Char := appendInt x 0

/-- Go `fmt.Sprint(a, b)` on two `int` operands: a space is added between operands
when neither is a string. -/
def sprint2 (p : Int × Int) : List Char := itoa p.1 ++ ' ' :: itoa p.2

/-! ## `options.go` -/

/-- Source `type RotationDuration byte`. -/
abbrev RotationDuration := Nat

/-- Source `Monthly RotationDuration = 'M'`. -/
def Monthly : RotationDuration := 77

/-- Source `Weekly RotationDuration = 'W'`. -/
def Weekly : RotationDuration := 87

/-- Source `Daily RotationDuration = 'D'`. -/
def Daily : RotationDuration := 68

/-- Source `Hourly RotationDuration = 'h'`. -/
def Hourly : RotationDuration := 104

/-- Source `Minutely RotationDuration = 'm'`. -/
def Minutely : RotationDuration := 109

/-- Source `Yearly RotationDuration = 'Y'`. -/
def Yearly : RotationDuration := 89

/-- Source `RotationDuration.Valid`. -/
def Valid (d : RotationDuration) : Bool :=
  d = 0 || d = Monthly || d = Weekly || d = Daily || d = Hourly || d = Minutely || d = Yearly

/-- Source `type Options struct` (the permission bits play no part in what follows). -/
structure Options where
  HistoryPath : List Char
  MaxSize : Int
  Duration : RotationDuration
  HistoryDir : List Char
  HistoryCount : Int
  deriving DecidableEq, Repr

/-! ## `rotator.go`: the rotation decision -/

/-- Source `var MaxSize int64 = 1024 * 1024 * 10`. -/
def MaxSize : Int := 1024 * 1024 * 10

/-- Two's-complement wrap of an `int64` result. -/
def wrapInt64 (x : Int) : Int := (x + 2 ^ 63) % 2 ^ 64 - 2 ^ 63

/-- What `AutoRotate` does: fail on the seek, call `Rotate`, or return `nil, nil`. -/
inductive Decision where
  | seekFailed
  | rotate
  | keep
  deriving DecidableEq, Repr

/-- The `switch this.Options.Duration` of `AutoRotate`: whether it calls `Rotate`. -/
def calendarRotate (d : RotationDuration) (last now : Time) : Bool :=
  if d = Minutely then last.Format layoutMinute != now.Format layoutMinute
  else if d = Hourly then last.Format layoutHour != now.Format layoutHour
  else if d = Daily then last.Format layoutDay != now.Format layoutDay
  else if d = Weekly then sprint2 last.ISOWeek != sprint2 now.ISOWeek
  else if d = 0 ∨ d = Monthly then last.Format layoutMonth != now.Format layoutMonth
  else if d = Yearly then last.Year != now.Year
  else false

/-- The calendar part of `AutoRotate` as a decision. -/
def calendarDecision (d : RotationDuration) (last now : Time) : Decision :=
  if calendarRotate d last now then .rotate else .keep

/-- Source `Rotator.AutoRotate(increaseSize)`. `seekEnd` is the result of
`this.f.Seek(0, io.SeekEnd)` (the current size of the active file, or a failure),
`last` is `this.lastRotation.Last` and `now` is `time.Now()`. -/
def AutoRotate (opt : Options) (seekEnd : Option Int) (last now : Time) (increaseSize : Int) :
    Decision :=
  let ms := opt.MaxSize
  if ms ≥ 0 then
    -- the local threshold is assigned here, and the comparison below reads the option
    let _ms := if ms = 0 then MaxSize else ms
    match seekEnd with
    | none => .seekFailed
    | some s =>
      if wrapInt64 (s + increaseSize) > opt.MaxSize then .rotate
      else calendarDecision opt.Duration last now
  else calendarDecision opt.Duration last now

/-- The date-and-time fields that the spec compares for a duration code. -/
def granularity (d : RotationDuration) (t : Time) : List Int :=
  if d = Minutely then [t.Year, t.Month, t.Day, t.Hour, t.Minute]
  else if d = Hourly then [t.Year, t.Month, t.Day, t.Hour]
  else if d = Daily then [t.Year, t.Month, t.Day]
  else if d = Weekly then [t.ISOWeek.1, t.ISOWeek.2]
  else if d = 0 ∨ d = Monthly then [t.Year, t.Month]
  else [t.Year]

/-! ## Go `strings` -/

/-- Go `strings.HasPrefix`. -/
def HasPrefix (s pfx : List Char) : Bool := pfx.isPrefixOf s

/-- Go `strings.HasSuffix`. -/
def HasSuffix (s sfx : List Char) : Bool := sfx.isSuffixOf s

/-- Go `strings.Contains`. -/
def Contains : List Char → List Char → Bool
  | [], sub => sub.isPrefixOf []
  | c :: cs, sub => sub.isPrefixOf (c :: cs) || Contains cs sub

/-- Go `strings.TrimSuffix`. -/
def TrimSuffix (s sfx : List Char) : List Char :=
  if HasSuffix s sfx then s.take (s.length - sfx.length) else s

/-- The scan of `strings.ReplaceAll` for a non-empty `old`: left to right, each
non-overlapping occurrence of `old` is replaced by `new`; `skip` counts the bytes of a
matched occurrence that remain to be passed over. -/
def replaceScan (old new : List Char) : Nat → List Char → List Char
  | _, [] => []
  | skip + 1, _ :: cs => replaceScan old new skip cs
  | 0, c :: cs =>
    if old.isPrefixOf (c :: cs) then new ++ replaceScan old new (old.length - 1) cs
    else c :: replaceScan old new 0 cs

/-- Go `strings.ReplaceAll(s, old, new)` (every use in the program has a two-byte `old`). -/
def ReplaceAll (s old new : List Char) : List Char := replaceScan old new 0 s

/-! ## Go `path/filepath` (Unix) -/

/-- The elements of a path: the pieces between separators. -/
def splitPath : List Char → List (List Char)
  | [] => [[]]
  | c :: cs =>
    if c = '/' then [] :: splitPath cs
    else
      match splitPath cs with
      | [] => [[c]]
      | e :: es => (c :: e) :: es

/-- The elements joined by separators. -/
def joinPath : List (List Char) → List Char
  | [] => []
  | [e] => e
  | e :: es => e ++ '/' :: joinPath es

/-- One step of the scan of `filepath.Clean` over a path element. The state holds the
elements written after the leading `..` run, last first, and the length of that run:
empty and `.` elements are dropped, `..` removes the last written element when there is
one, is kept when the path is not rooted, and is dropped under the root. -/
def cleanStep (rooted : Bool) (st : List (List Char) × Nat) (e : List Char) :
    List (List Char) × Nat :=
  if e = [] ∨ e = ['.'] then st
  else if e = ['.', '.'] then
    match st.1 with
    | _ :: out => (out, st.2)
    | [] => if rooted then st else ([], st.2 + 1)
  else (e :: st.1, st.2)

/-- Go `filepath.Clean`. -/
def Clean (path : List Char) : List Char :=
  if path = [] then ['.']
  else
    let rooted := path.head? == some '/'
    let st := (splitPath path).foldl (cleanStep rooted) ([], 0)
    let elems := List.replicate st.2 ['.', '.'] ++ st.1.reverse
    if rooted then '/' :: joinPath elems
    else if elems = [] then ['.']
    else joinPath elems

/-- Go `filepath.Join(a, b)`: the non-empty elements joined by a separator and cleaned;
empty when both are empty. -/
def Join (a b : List Char) : List Char :=
  if a ≠ [] then Clean (a ++ '/' :: b)
  else if b ≠ [] then Clean b
  else []

/-- Go `filepath.Base`. -/
def Base (path : List Char) : List Char :=
  if path = [] then ['.']
  else
    let stripped := (path.reverse.dropWhile (fun c => c == '/')).reverse
    let last := (stripped.reverse.takeWhile (fun c => c != '/')).reverse
    if last = [] then ['/'] else last

/-- Go `filepath.Ext`: the suffix of the final element that starts at its last dot. -/
def Ext (path : List Char) : List Char :=
  let last := path.reverse.takeWhile (fun c => c != '/')
  if last.contains '.' then '.' :: (last.takeWhile (fun c => c != '.')).reverse else []

/-! ## `rotator.go`: names -/

/-- Source `const T_FORMAT = "%Y%M%DT%h%m%s%Z"`. -/
def T_FORMAT : List Char := "%Y%M%DT%h%m%s%Z".toList

/-- Source `func TFormat(t time.Time, fmt string) string`. -/
def TFormat (t : Time) (fmt : List Char) : List Char :=
  let t := if !Contains fmt "%Z".toList then t.UTC else t
  ReplaceAll
    (ReplaceAll
      (ReplaceAll
        (ReplaceAll
          (ReplaceAll
            (ReplaceAll
              (ReplaceAll fmt
                "%Y".toList (t.Format [.stdLongYear]))
              "%M".toList (t.Format [.stdZeroMonth]))
            "%D".toList (t.Format [.stdZeroDay]))
          "%h".toList (t.Format [.stdHour]))
        "%m".toList (t.Format [.stdZeroMinute]))
      "%s".toList (t.Format [.stdZeroSecond]))
    "%Z".toList (t.Format [.stdISO8601TZ])

/-- Source `type Rotator struct` (the fields the names depend on). -/
structure Rotator where
  Path : List Char
  Options : Options
  name : List Char
  ext : List Char
  deriving DecidableEq, Repr

/-- Source `func New(path string, options ...Options) *Rotator`, with the options in force
(the last ones given, or the zero value). -/
def New (path : List Char) (opt : Options) : Rotator :=
  let historyDir := if opt.HistoryDir = [] then path ++ ".glogrotation".toList else opt.HistoryDir
  let name := Base path
  let ext := Ext name
  { Path := path
    Options :=
      { opt with
        HistoryDir := historyDir
        HistoryPath := Join opt.HistoryPath (TrimSuffix name ext ++ '_' :: T_FORMAT ++ ext) }
    name := name
    ext := ext }

/-- Source `Rotator.NewNameT(t)`: the relative name and the path under the history
directory. -/
def NewNameT (r : Rotator) (t : Time) : List Char × List Char :=
  let name := TFormat t r.Options.HistoryPath
  (name, Join r.Options.HistoryDir name)

/-- The value that replaces the token `%c` according to the spec, for the fields of `t`:
zero-padded year, month, day, hour, minute and second, and the zone marker. -/
def tokenValue (t : Time) (c : Char) : Option (List Char) :=
  if c = 'Z' then some (formatZone t.offset)
  else if c = 's' then some (appendInt t.Second 2)
  else if c = 'm' then some (appendInt t.Minute 2)
  else if c = 'h' then some (appendInt t.Hour 2)
  else if c = 'D' then some (appendInt t.Day 2)
  else if c = 'M' then some (appendInt t.Month 2)
  else if c = 'Y' then some (appendInt t.Year 4)
  else none

/-- One left-to-right pass over a template: a `%` followed by a byte that has a value
is replaced by that value, every other byte is copied. -/
def substTokens (val : Char → Option (List Char)) : List Char → List Char
  | [] => []
  | [x] => [x]
  | x :: c :: rest =>
    if x = '%' then
      match val c with
      | some v => v ++ substTokens val rest
      | none => x :: substTokens val (c :: rest)
    else x :: substTokens val (c :: rest)

/-- Whether a string holds one of the seven tokens. -/
def hasToken (s : List Char) : Bool :=
  Contains s "%Y".toList || Contains s "%M".toList || Contains s "%D".toList ||
    Contains s "%h".toList || Contains s "%m".toList || Contains s "%s".toList ||
    Contains s "%Z".toList

/-- The history timestamp of the spec: `%Y%M%DT%h%m%sZ` on the UTC fields of `t`. -/
def utcStamp (t : Time) : List Char :=
  appendInt t.UTC.Year 4 ++ appendInt t.UTC.Month 2 ++ appendInt t.UTC.Day 2 ++
    'T' :: (appendInt t.UTC.Hour 2 ++ appendInt t.UTC.Minute 2 ++ appendInt t.UTC.Second 2 ++ ['Z'])

/-! ## `rotator.go`: the control record -/

/-- Go `uint64(v)` of an `int64`. -/
def toUint64 (v : Int) : Nat := (v % 2 ^ 64).toNat

/-- Go `int64(u)` of a `uint64`. -/
def toInt64 (u : Nat) : Int := if u < 2 ^ 63 then (u : Int) else (u : Int) - 2 ^ 64

/-- Go `binary.BigEndian.PutUint64`. -/
def putUint64 (u : Nat) : List Nat :=
  [u / 2 ^ 56 % 256, u / 2 ^ 48 % 256, u / 2 ^ 40 % 256, u / 2 ^ 32 % 256,
    u / 2 ^ 24 % 256, u / 2 ^ 16 % 256, u / 2 ^ 8 % 256, u % 256]

/-- Go `binary.BigEndian.Uint64` on the bytes read. -/
def getUint64 (bs : List Nat) : Nat := bs.foldl (fun a b => a * 256 + b) 0

/-- Source `type Control struct`. -/
structure Control where
  Last : Time
  deriving DecidableEq, Repr

/-- What opening the control file gives: it does not exist, it cannot be opened for
another reason, or it is opened with the given content. -/
inductive ControlFile where
  | notExist
  | failed
  | content (bytes : List Nat)
  deriving DecidableEq, Repr

/-- The failures of the control-record functions. -/
inductive ControlError where
  | openFailed
  | readFailed
  deriving DecidableEq, Repr

/-- Source `Rotator.saveControl`: with the file opened (`O_TRUNC`), the bytes it holds after
`binary.Write(f, binary.BigEndian, this.lastRotation.Last.Unix())`. -/
def saveControl (canOpen : Bool) (c : Control) : Except ControlError (List Nat) :=
  if canOpen then .ok (putUint64 (toUint64 c.Last.Unix)) else .error .openFailed

/-- Source `Rotator.loadControlOrCreate`: the last-rotation record and the content of the
control file afterwards. `now` is `time.Now()`, `localLoc` is `time.Local`. -/
def loadControlOrCreate (file : ControlFile) (now : Time) (localLoc : Location)
    (canCreate : Bool) : Except ControlError (Control × ControlFile) :=
  match file with
  | .notExist =>
    match saveControl canCreate ⟨now⟩ with
    | .ok bytes => .ok (⟨now⟩, .content bytes)
    | .error e => .error e
  | .failed => .error .openFailed
  | .content bytes =>
    if bytes.length < 8 then .error .readFailed
    else
      .ok (⟨(unixTime (toInt64 (getUint64 (bytes.take 8))) utcLoc).In localLoc⟩,
        .content bytes)

/-! ## `rotator.go`: the history catalog -/

/-- One file or directory that `filepath.Walk` hands to the callback of `Each` with a nil
error: its path relative to the history directory and its base name. -/
structure WalkItem where
  path : List Char
  name : List Char
  deriving DecidableEq, Repr

/-- Source `type FileHistroyEntry struct`. -/
structure FileHistroyEntry where
  At : Time
  root : List Char
  path : List Char
  deriving DecidableEq, Repr

/-- The run-time panics of the scan. -/
inductive ScanPanic where
  | sliceBounds
  | indexRange
  deriving DecidableEq, Repr

/-- The name test of the callback of `Each` on one name: `none` when the callback `cb` is
not called, `some info` when it is called with `info`; a slice or index expression out of
range panics. -/
def eachInfo (r : Rotator) (name : List Char) : Except ScanPanic (Option (List Char)) :=
  let pfx := (if r.ext ≠ [] then TrimSuffix r.name r.ext else r.name) ++ ['_']
  if HasPrefix name pfx && HasSuffix name ".gz".toList then
    let lo : Int := pfx.length
    let hi : Int := (name.length : Int) - r.ext.length - 3
    if hi < lo then .error .sliceBounds
    else
      let info := (name.drop lo.toNat).take (hi - lo).toNat
      match info.get? 8 with
      | none => .error .indexRange
      | some c8 =>
        if c8 = 'T' then
          match info.get? 15 with
          | none => .error .indexRange
          | some c15 => if c15 = 'Z' then .ok (some info) else .ok none
        else .ok none
  else .ok none

/-- Regexp `^\d{8}T\d{6}Z$`. -/
def fmtReMatch (info : List Char) : Bool :=
  decide (info.length = 16) && (info.take 8).all isDigit && info.get? 8 == some 'T' &&
    ((info.drop 9).take 6).all isDigit && info.get? 15 == some 'Z'

/-- Whether `y` is a leap year. -/
def isLeap (y : Int) : Bool := y % 4 = 0 && (y % 100 != 0 || y % 400 = 0)

/-- Number of days of month `m` in year `y`. -/
def daysIn (m y : Int) : Int :=
  if m = 2 then (if isLeap y then 29 else 28)
  else if m = 4 ∨ m = 6 ∨ m = 9 ∨ m = 11 then 30
  else 31

/-- Go `time.Parse("20060102T150405Z", info)` on a string that matches `fmtRe`: the fields are
read at their fixed positions; a month, day, hour, minute or second out of range is an
error; the result is in UTC. -/
def parseStamp (info : List Char) : Option Time :=
  let year : Int := ofDigits (info.take 4)
  let month : Int := ofDigits ((info.drop 4).take 2)
  let day : Int := ofDigits ((info.drop 6).take 2)
  let hour : Int := ofDigits ((info.drop 9).take 2)
  let min : Int := ofDigits ((info.drop 11).take 2)
  let sec : Int := ofDigits ((info.drop 13).take 2)
  if month < 1 ∨ 12 < month then none
  else if 24 ≤ hour ∨ 60 ≤ min ∨ 60 ≤ sec then none
  else if day < 1 ∨ daysIn month year < day then none
  else some ⟨daysFromCivil year month day * 86400 + hour * 3600 + min * 60 + sec, 0, utcLoc⟩

/-- The callback that `History` passes to `Each`: the entry it appends, if any. -/
def historyEntry (r : Rotator) (localLoc : Location) (pth info : List Char) :
    Option FileHistroyEntry :=
  if fmtReMatch info then
    match parseStamp info with
    | some t => some { At := t.In localLoc, path := pth, root := r.Options.HistoryDir }
    | none => none
  else none

/-- The entries that `History` collects through `Each` over the walked items, in walk order. -/
def collectEntries (r : Rotator) (localLoc : Location) :
    List WalkItem → Except ScanPanic (List FileHistroyEntry)
  | [] => .ok []
  | it :: rest =>
    match eachInfo r it.name with
    | .error e => .error e
    | .ok oinfo =>
      match collectEntries r localLoc rest with
      | .error e => .error e
      | .ok es =>
        match oinfo.bind (historyEntry r localLoc it.path) with
        | some e => .ok (e :: es)
        | none => .ok es

/-- Insertion of `x` into a list ordered by `less`, after the elements that `less` puts
before it. -/
def insertBy {α : Type} (less : α → α → Bool) (x : α) : List α → List α
  | [] => [x]
  | y :: ys => if less x y then x :: y :: ys else y :: insertBy less x ys

/-- Go `sort.Slice(events, less)`: the slice reordered so that no element is `less` than
one before it (the order of elements that `less` does not separate is unspecified in Go;
they keep their order here). -/
def sortSlice {α : Type} (less : α → α → Bool) : List α → List α
  | [] => []
  | x :: xs => insertBy less x (sortSlice less xs)

/-- The first filter of `History`: `entry.at.Equal(from) || entry.at.After(from)`. -/
def keepFrom (tFrom : Time) (e : FileHistroyEntry) : Bool := e.At.Equal tFrom || e.At.After tFrom

/-- The second filter of `History`: `entry.at.Equal(to) || entry.at.Before(to)`. -/
def keepTo (tTo : Time) (e : FileHistroyEntry) : Bool := e.At.Equal tTo || e.At.Before tTo

/-- The filters and the sort of `History` on the collected entries. -/
def filterSort (tFrom tTo : Time) (events : List FileHistroyEntry) : List FileHistroyEntry :=
  let events := if !tFrom.IsZero then events.filter (keepFrom tFrom) else events
  let events := if !tTo.IsZero then events.filter (keepTo tTo) else events
  sortSlice (fun a b => a.At.After b.At) events

/-- Source `Rotator.History(from, to, count)` over the walked items of the history tree. -/
def History (r : Rotator) (localLoc : Location) (items : List WalkItem) (tFrom tTo : Time) :
    Except ScanPanic (List FileHistroyEntry) :=
  match collectEntries r localLoc items with
  | .error e => .error e
  | .ok events => .ok (filterSort tFrom tTo events)

/-- The entries whose files the retention step of `Rotate` removes: `history[s:]` when
`s = HistoryCount > 0` and `len(history) > s`. -/
def pruneTargets (historyCount : Int) (history : List FileHistroyEntry) :
    List FileHistroyEntry :=
  if historyCount > 0 then
    if (history.length : Int) > historyCount then history.drop historyCount.toNat else []
  else []

/-! ## Auxiliary definitions for the layouts -/

/-- The calendar field that a layout chunk prints (0 for the chunks that print no field). -/
def chunkField (t : Time) : Chunk → Int
  | .stdLongYear => t.Year
  | .stdZeroMonth => t.Month
  | .stdZeroDay => t.Day
  | .stdHour => t.Hour
  | .stdZeroMinute => t.Minute
  | .stdZeroSecond => t.Second
  | .stdISO8601TZ => 0
  | .lit _ => 0

/-- The chunks whose output has the same length for every time: literals and the
two-digit fields. -/
def fixedWidth : Chunk → Bool
  | .stdLongYear => false
  | .stdISO8601TZ => false
  | _ => true

/-- A token table extended with the value `v` for the byte `c`. -/
def extendVal (val : Char → Option (List Char)) (c : Char) (v : List Char) :
    Char → Option (List Char) :=
  fun k => if k = c then some v else val k

/-- Options with a size threshold of 10 bytes and daily rotation. -/
def sizeTenOptions : Options :=
  { HistoryPath := "%Y/%M".toList, MaxSize := 10, Duration := Daily, HistoryDir := [],
    HistoryCount := 0 }

/-- Options with size-based rotation disabled and daily rotation. -/
def dailyOptions : Options :=
  { HistoryPath := "%Y/%M".toList, MaxSize := -1, Duration := Daily, HistoryDir := [],
    HistoryCount := 0 }

/-- Options with the size threshold left at 0 and daily rotation. -/
def defaultSizeOptions : Options :=
  { HistoryPath := "%Y/%M".toList, MaxSize := 0, Duration := Daily, HistoryDir := [],
    HistoryCount := 0 }

/-- The instant 2024-01-15 23:59:59 UTC. -/
def jan15Late : Time := ⟨1705363199, 0, utcLoc⟩

/-- The instant 2024-01-16 00:00:01 UTC. -/
def jan16Early : Time := ⟨1705363201, 0, utcLoc⟩

/-- The instant 2024-01-15 14:30:45 UTC, displayed in UTC. -/
def afternoonUTC : Time := ⟨1705329045, 0, utcLoc⟩

/-- The same instant displayed in a zone seven hours east of UTC (21:30:45 +0700). -/
def afternoonEast : Time := ⟨1705329045, 0, fixedZone 25200⟩

/-- Options with the history-path template `%Y/%M` and the history directory `hist`. -/
def historyOptions : Options :=
  { HistoryPath := "%Y/%M".toList, MaxSize := -1, Duration := Monthly,
    HistoryDir := "hist".toList, HistoryCount := 1 }

/-- The instant 2024-01-15 14:30:45.123456789 UTC, displayed seven hours east of UTC. -/
def afternoonNanos : Time := ⟨1705329045, 123456789, fixedZone 25200⟩

/-- The condition of the spec for an entry to be listed between `from` and `to`. -/
def inRange (tFrom tTo : Time) (e : FileHistroyEntry) : Bool :=
  (tFrom.IsZero || !e.At.Before tFrom) && (tTo.IsZero || !e.At.After tTo)

/-- The Rotator of the examples: base file `app.log`, history directory `hist`. -/
def appRotator : Rotator := New "app.log".toList historyOptions

/-- A history tree with two rotated files of January 2024 and their directories. -/
def twoFiles : List WalkItem :=
  [⟨".".toList, "hist".toList⟩, ⟨"2024".toList, "2024".toList⟩,
    ⟨"2024/01".toList, "01".toList⟩,
    ⟨"2024/01/app_20240110T090000Z.log.gz".toList, "app_20240110T090000Z.log.gz".toList⟩,
    ⟨"2024/01/app_20240115T143045Z.log.gz".toList, "app_20240115T143045Z.log.gz".toList⟩]

/-- A history tree with three rotated files, of December 2023 and January 2024. -/
def threeFiles : List WalkItem :=
  [⟨"2023/12/app_20231231T235959Z.log.gz".toList, "app_20231231T235959Z.log.gz".toList⟩,
    ⟨"2024/01/app_20240110T090000Z.log.gz".toList, "app_20240110T090000Z.log.gz".toList⟩,
    ⟨"2024/01/app_20240115T143045Z.log.gz".toList, "app_20240115T143045Z.log.gz".toList⟩]

/-- The entry of the file rotated at 2023-12-31 23:59:59 UTC. -/
def entryDec31 : FileHistroyEntry :=
  ⟨⟨1704067199, 0, utcLoc⟩, "hist".toList, "2023/12/app_20231231T235959Z.log.gz".toList⟩

/-- The entry of the file rotated at 2024-01-10 09:00:00 UTC. -/
def entryJan10 : FileHistroyEntry :=
  ⟨⟨1704877200, 0, utcLoc⟩, "hist".toList, "2024/01/app_20240110T090000Z.log.gz".toList⟩

/-- The entry of the file rotated at 2024-01-15 14:30:45 UTC. -/
def entryJan15 : FileHistroyEntry :=
  ⟨⟨1705329045, 0, utcLoc⟩, "hist".toList, "2024/01/app_20240115T143045Z.log.gz".toList⟩

/-! ## `rotator.go`: `Rotate` over the outcomes of its file-system steps -/

/-- What `os.Stat` on the directory of the history path gives. -/
inductive StatResult where
  | found
  | notExist
  | failed
  deriving DecidableEq, Repr

/-- The outcomes of the file-system steps of one call of `Rotate`; a step that the call
does not reach leaves its outcome unused. `dirIsDot` is `filepath.Dir(hPath) == "."`. -/
structure RotateSteps where
  dirIsDot : Bool
  saveControl : Bool
  stat : StatResult
  mkdirAll : Bool
  rename : Bool
  fallbackRename : Bool
  openFresh : Bool
  openAppend : Bool
  deriving DecidableEq, Repr

/-- The field `this.f` after `Rotate`: nil, the file opened with `O_RDWR|O_CREATE`, or the
file opened with `O_RDWR|O_APPEND`. -/
inductive ActiveFile where
  | closed
  | fresh
  | appended
  deriving DecidableEq, Repr

/-- What `Rotate` leaves and returns: `this.f`, whether `err` is non-nil, whether an entry
is returned, and whether the compression task is started. -/
structure RotateResult where
  f : ActiveFile
  err : Bool
  entry : Bool
  compress : Bool
  deriving DecidableEq, Repr

/-- Whether `err` is non-nil after the block of `Rotate` that creates the directory of the
history path and renames the active file into it. -/
def renameFailed (o : RotateSteps) : Bool :=
  if o.dirIsDot then false
  else
    let statErr :=
      match o.stat with
      | .found => false
      | .notExist => !o.mkdirAll
      | .failed => true
    if !statErr then
      if o.rename then false else !o.fallbackRename
    else true

/-- Source `Rotator.Rotate` after the old file is closed: a failure of `saveControl` is
logged only; with `err == nil` the active path is opened afresh, otherwise it is re-opened
in append mode. -/
def Rotate (o : RotateSteps) : RotateResult :=
  if !renameFailed o then
    if o.openFresh then { f := .fresh, err := false, entry := true, compress := true }
    else { f := .closed, err := true, entry := false, compress := false }
  else
    if o.openAppend then { f := .appended, err := false, entry := false, compress := false }
    else { f := .closed, err := true, entry := false, compress := false }

/-- Steps in which the rename and the fallback rename fail and the append-mode open
succeeds. -/
def renameFails : RotateSteps :=
  { dirIsDot := false, saveControl := true, stat := .found, mkdirAll := true, rename := false,
    fallbackRename := false, openFresh := true, openAppend := true }

/-- Steps in which the rename succeeds, the fresh re-open fails and an append-mode open
would succeed. -/
def freshOpenFails : RotateSteps :=
  { dirIsDot := false, saveControl := true, stat := .found, mkdirAll := true, rename := true,
    fallbackRename := true, openFresh := false, openAppend := true }

/-! ## `options.go`: `Config.Options` -/

/-- Source `type Config struct` (without the permission bits). -/
structure Config where
  MaxSize : List Char
  Duration : List Char
  HistoryDir : List Char
  HistoryPath : List Char
  HistoryCount : Int
  deriving DecidableEq, Repr

/-- The failures of `Config.Options`. -/
inductive ConfigError where
  | badDuration
  | badSize
  deriving DecidableEq, Repr

/-- Go `string(b)` of a byte: the UTF-8 encoding of the code point `b`. -/
def byteString (b : Char) : List Char :=
  if b.toNat < 128 then [b]
  else [Char.ofNat (192 + b.toNat / 64), Char.ofNat (128 + b.toNat % 64)]

/-- Go `strings.ToUpper(string(b))[0]` of a byte: an ASCII lower-case letter becomes the
upper-case one, another ASCII byte is kept, and a byte from 128 on gives the first byte of
a two-byte encoding. -/
def upperFirstByte (b : Char) : Char :=
  if 97 ≤ b.toNat ∧ b.toNat ≤ 122 then Char.ofNat (b.toNat - 32)
  else if b.toNat < 128 then b
  else if b.toNat = 181 then Char.ofNat 206
  else if b.toNat = 255 then Char.ofNat 197
  else Char.ofNat (192 + b.toNat / 64)

/-- Go `strconv.Atoi`: an optional sign and at least one decimal digit, with a value that
is an `int` (64 bits); `none` is an error. -/
def Atoi (s : List Char) : Option Int :=
  let neg := s.head? == some '-'
  let ds := if s.head? == some '-' ∨ s.head? == some '+' then s.tail else s
  if ds = [] ∨ ds.all isDigit = false then none
  else
    let v : Int := if neg then -(ofDigits ds : Int) else (ofDigits ds : Int)
    if v < -2 ^ 63 ∨ 2 ^ 63 ≤ v then none else some v

/-- The exponent that the `switch c` of `Config.Options` selects, and the string handed to
`strconv.Atoi`. -/
def sizeParts (maxSize : List Char) (last : Char) : Nat × List Char :=
  let c := upperFirstByte last
  let body := maxSize.dropLast
  if c = 'K' then (3, body)
  else if c = 'M' then (6, body)
  else if c = 'G' then (9, body)
  else if c = 'T' then (12, body)
  else (0, body ++ byteString c)

/-- The size part of `Config.Options`: the value of `s` (an `int`), or `none` when
`strconv.Atoi` fails. `int(math.Pow(10, m))` is `10 ^ m` for the exponents 0, 3, 6, 9
and 12. -/
def parseMaxSize (maxSize : List Char) : Option Int :=
  match maxSize.getLast? with
  | none => some 0
  | some last =>
    match Atoi (sizeParts maxSize last).2 with
    | none => none
    | some s => some (wrapInt64 (s * 10 ^ (sizeParts maxSize last).1))

/-- Source `func (this Config) Options() (opt Options, err error)`. -/
def Config.Options (c : Config) : Except ConfigError Options :=
  let d : RotationDuration :=
    match c.Duration with
    | [] => 0
    | b :: _ => b.toNat
  if c.Duration ≠ [] ∧ Valid d = false then .error .badDuration
  else
    match parseMaxSize c.MaxSize with
    | none => .error .badSize
    | some s =>
      .ok { HistoryDir := c.HistoryDir, HistoryPath := c.HistoryPath, MaxSize := s,
            HistoryCount := c.HistoryCount, Duration := d }

/-- A configuration with the given size string and the defaults of the command line. -/
def sizeConfig (maxSize : List Char) : Config :=
  { MaxSize := maxSize, Duration := "M".toList, HistoryDir := "OUT.history".toList,
    HistoryPath := "%Y/%M".toList, HistoryCount := 0 }

/-- The integer that a decimal string denotes: its digits `ds`, negated after the sign `-`. -/
def decimalValue (sgn ds : List Char) : Int :=
  if sgn = ['-'] then -(ofDigits ds : Int) else (ofDigits ds : Int)

/-- Whether the year after year `y` of an era is a leap year (1) or not (0): the year that
starts on March 1st of year `y` then has 366 days. -/
def leapNext (y : Int) : Int :=
  if (y + 1) % 4 = 0 ∧ ((y + 1) % 100 ≠ 0 ∨ (y + 1) % 400 = 0) then 1 else 0

/-! # Verified properties -/

/-! ## Decimal output -/

theorem digitVal_digitChar (d : Nat) : digitVal (digitChar d) = d % 10 := by
  unfold digitChar
  split <;> simp_all [digitVal]
  omega

theorem isDigit_digitChar (d : Nat) : isDigit (digitChar d) = true := by
  unfold digitChar
  split <;> decide

theorem digitsFuel_ne_nil (fuel n : Nat) : digitsFuel (fuel + 1) n ≠ [] := by
  unfold digitsFuel
  split <;> simp

theorem digitsFuel_isDigit (fuel n : Nat) : ∀ c ∈ digitsFuel fuel n, isDigit c = true := by
  induction fuel generalizing n with
  | zero => simp [digitsFuel]
  | succ k ih =>
    intro c hc
    unfold digitsFuel at hc
    split at hc
    · simp at hc
      subst hc
      exact isDigit_digitChar n
    · rcases List.mem_append.1 hc with h | h
      · exact ih _ c h
      · simp at h
        subst h
        exact isDigit_digitChar n

theorem ofDigits_append_single (l : List Char) (c : Char) :
    ofDigits (l ++ [c]) = 10 * ofDigits l + digitVal c := by
  simp [ofDigits, List.foldl_append]

theorem ofDigits_digitsFuel (fuel n : Nat) (h : n < fuel) : ofDigits (digitsFuel fuel n) = n := by
  induction fuel generalizing n with
  | zero => omega
  | succ k ih =>
    unfold digitsFuel
    split
    · rename_i h10
      simp [ofDigits, digitVal_digitChar]
      omega
    · rw [ofDigits_append_single, ih (n / 10) (by omega), digitVal_digitChar]
      omega

theorem ofDigits_utod (n : Nat) : ofDigits (utod n) = n :=
  ofDigits_digitsFuel (n + 1) n (by omega)

theorem ofDigits_zeros (k : Nat) (l : List Char) :
    ofDigits (List.replicate k '0' ++ l) = ofDigits l := by
  induction k with
  | zero => simp
  | succ k ih =>
    have h0 : ∀ m : List Char, ofDigits ('0' :: m) = ofDigits m := by
      intro m
      simp [ofDigits, digitVal]
    rw [List.replicate_succ, List.cons_append, h0, ih]

/-- The digits of `appendInt`, without the sign. -/
theorem padBody_isDigit (n width : Nat) :
    ∀ c ∈ List.replicate (width - (utod n).length) '0' ++ utod n, isDigit c = true := by
  intro c hc
  rcases List.mem_append.1 hc with h | h
  · rw [(List.mem_replicate.1 h).2]
    decide
  · exact digitsFuel_isDigit _ _ c h

theorem padBody_ne_nil (n width : Nat) :
    List.replicate (width - (utod n).length) '0' ++ utod n ≠ [] := by
  intro h
  exact digitsFuel_ne_nil n n (List.append_eq_nil.1 h).2

theorem ofDigits_padBody (n width : Nat) :
    ofDigits (List.replicate (width - (utod n).length) '0' ++ utod n) = n := by
  rw [ofDigits_zeros, ofDigits_utod]

theorem appendInt_ne_nil (x : Int) (width : Nat) : appendInt x width ≠ [] := by
  unfold appendInt
  simp only []
  split
  · simp
  · exact padBody_ne_nil _ _

/-- Every byte of a rendered integer is a digit or the minus sign. -/
theorem appendInt_chars (x : Int) (width : Nat) :
    ∀ c ∈ appendInt x width, isDigit c = true ∨ c = '-' := by
  intro c hc
  unfold appendInt at hc
  simp only [] at hc
  split at hc
  · rcases List.mem_cons.1 hc with h | h
    · exact Or.inr h
    · exact Or.inl (padBody_isDigit _ _ c h)
  · exact Or.inl (padBody_isDigit _ _ c hc)

theorem appendInt_inj (x y : Int) (width : Nat) (h : appendInt x width = appendInt y width) :
    x = y := by
  unfold appendInt at h
  simp only [] at h
  have hx := ofDigits_padBody x.natAbs width
  have hy := ofDigits_padBody y.natAbs width
  split at h <;> split at h
  · rw [List.cons.injEq] at h
    rw [h.2, hy] at hx
    omega
  · exfalso
    have hd := padBody_isDigit y.natAbs width '-' (by rw [← h]; exact List.mem_cons_self _ _)
    revert hd
    decide
  · exfalso
    have hd := padBody_isDigit x.natAbs width '-' (by rw [h]; exact List.mem_cons_self _ _)
    revert hd
    decide
  · rw [h, hy] at hx
    omega

theorem utod_length_small (n : Nat) (h : n < 100) : (utod n).length = if n < 10 then 1 else 2 := by
  unfold utod
  unfold digitsFuel
  split
  · rfl
  · obtain ⟨m, rfl⟩ : ∃ m, n = m + 1 := ⟨n - 1, by omega⟩
    unfold digitsFuel
    rw [if_pos (by omega)]
    rfl

theorem appendInt_two_length (x : Int) (h0 : 0 ≤ x) (h1 : x < 100) :
    (appendInt x 2).length = 2 := by
  unfold appendInt
  simp only []
  rw [if_neg (by omega)]
  rw [List.length_append, List.length_replicate, utod_length_small _ (by omega)]
  split <;> rfl

theorem civilMonth_bounds (z : Int) : 1 ≤ civilMonth z ∧ civilMonth z ≤ 12 := by
  unfold civilMonth marchMonth dayOfMarchYear yearOfEra dayOfEra
  split <;> omega

theorem civilDay_bounds (z : Int) : 1 ≤ civilDay z ∧ civilDay z ≤ 31 := by
  unfold civilDay marchMonth dayOfMarchYear yearOfEra dayOfEra
  omega

/-! ## Calendar fields and layouts -/

theorem Hour_bounds (t : Time) : 0 ≤ t.Hour ∧ t.Hour < 100 := by
  unfold Time.Hour
  omega

theorem Minute_bounds (t : Time) : 0 ≤ t.Minute ∧ t.Minute < 100 := by
  unfold Time.Minute
  omega

theorem Second_bounds (t : Time) : 0 ≤ t.Second ∧ t.Second < 100 := by
  unfold Time.Second
  omega

theorem Month_bounds (t : Time) : 0 ≤ t.Month ∧ t.Month < 100 := by
  have h := civilMonth_bounds t.dayNumber
  unfold Time.Month
  omega

theorem Day_bounds (t : Time) : 0 ≤ t.Day ∧ t.Day < 100 := by
  have h := civilDay_bounds t.dayNumber
  unfold Time.Day
  omega

/-- A fixed-width chunk prints either a literal or a field between 0 and 99 on two digits. -/
theorem formatChunk_fixed (t : Time) (c : Chunk) (hc : fixedWidth c = true) :
    (∃ ch, c = .lit ch) ∨
      (t.formatChunk c = appendInt (chunkField t c) 2 ∧ 0 ≤ chunkField t c ∧
        chunkField t c < 100) := by
  cases c with
  | stdLongYear => simp [fixedWidth] at hc
  | stdISO8601TZ => simp [fixedWidth] at hc
  | lit ch => exact Or.inl ⟨ch, rfl⟩
  | stdZeroMonth => exact Or.inr ⟨rfl, Month_bounds t⟩
  | stdZeroDay => exact Or.inr ⟨rfl, Day_bounds t⟩
  | stdHour => exact Or.inr ⟨rfl, Hour_bounds t⟩
  | stdZeroMinute => exact Or.inr ⟨rfl, Minute_bounds t⟩
  | stdZeroSecond => exact Or.inr ⟨rfl, Second_bounds t⟩

theorem formatChunk_fixed_length (t u : Time) (c : Chunk) (hc : fixedWidth c = true) :
    (t.formatChunk c).length = (u.formatChunk c).length := by
  rcases formatChunk_fixed t c hc with ⟨ch, rfl⟩ | ⟨ht, ht0, ht1⟩
  · rfl
  · rcases formatChunk_fixed u c hc with ⟨ch, rfl⟩ | ⟨hu, hu0, hu1⟩
    · rfl
    · rw [ht, hu, appendInt_two_length _ ht0 ht1, appendInt_two_length _ hu0 hu1]

theorem formatChunk_fixed_inj (t u : Time) (c : Chunk) (hc : fixedWidth c = true)
    (h : t.formatChunk c = u.formatChunk c) : chunkField t c = chunkField u c := by
  rcases formatChunk_fixed t c hc with ⟨ch, rfl⟩ | ⟨ht, _, _⟩
  · rfl
  · rcases formatChunk_fixed u c hc with ⟨ch, rfl⟩ | ⟨hu, _, _⟩
    · rfl
    · rw [ht, hu] at h
      exact appendInt_inj _ _ 2 h

theorem Format_fixed_length (t u : Time) (l : List Chunk) (hl : ∀ c ∈ l, fixedWidth c = true) :
    (t.Format l).length = (u.Format l).length := by
  induction l with
  | nil => rfl
  | cons c cs ih =>
    simp only [Time.Format, List.length_append]
    rw [formatChunk_fixed_length t u c (hl c (List.mem_cons_self _ _)),
      ih (fun d hd => hl d (List.mem_cons_of_mem _ hd))]

/-- Two times print alike under a fixed-width layout exactly when the printed fields agree. -/
theorem Format_fixed_eq_iff (t u : Time) (l : List Chunk) (hl : ∀ c ∈ l, fixedWidth c = true) :
    t.Format l = u.Format l ↔ l.map (chunkField t) = l.map (chunkField u) := by
  induction l with
  | nil => simp [Time.Format]
  | cons c cs ih =>
    have hc := hl c (List.mem_cons_self _ _)
    have hcs : ∀ d ∈ cs, fixedWidth d = true := fun d hd => hl d (List.mem_cons_of_mem _ hd)
    simp only [Time.Format, List.map_cons, List.cons.injEq]
    constructor
    · intro h
      have h2 := List.append_inj h (formatChunk_fixed_length t u c hc)
      exact ⟨formatChunk_fixed_inj t u c hc h2.1, (ih hcs).1 h2.2⟩
    · rintro ⟨h1, h2⟩
      have e1 : t.formatChunk c = u.formatChunk c := by
        rcases formatChunk_fixed t c hc with ⟨ch, rfl⟩ | ⟨ht, _, _⟩
        · rfl
        · rcases formatChunk_fixed u c hc with ⟨ch, rfl⟩ | ⟨hu, _, _⟩
          · rfl
          · rw [ht, hu, h1]
      rw [e1, (ih hcs).2 h2]

/-- A layout that starts with the year and goes on with fixed-width chunks prints two
times alike exactly when the year and the other printed fields agree. -/
theorem Format_year_eq_iff (t u : Time) (l : List Chunk) (hl : ∀ c ∈ l, fixedWidth c = true) :
    t.Format (.stdLongYear :: l) = u.Format (.stdLongYear :: l) ↔
      t.Year = u.Year ∧ l.map (chunkField t) = l.map (chunkField u) := by
  simp only [Time.Format, Time.formatChunk]
  constructor
  · intro h
    have h2 := List.append_inj' h (Format_fixed_length t u l hl)
    exact ⟨appendInt_inj _ _ 4 h2.1, (Format_fixed_eq_iff t u l hl).1 h2.2⟩
  · rintro ⟨h1, h2⟩
    rw [h1, (Format_fixed_eq_iff t u l hl).2 h2]

/-- A separator that occurs in neither left part splits two equal strings alike. -/
theorem append_sep_inj (sep : Char) (a a2 b b2 : List Char) (ha : sep ∉ a) (ha2 : sep ∉ a2)
    (h : a ++ sep :: b = a2 ++ sep :: b2) : a = a2 ∧ b = b2 := by
  induction a generalizing a2 with
  | nil =>
    cases a2 with
    | nil => simpa using h
    | cons x xs =>
      simp only [List.nil_append, List.cons_append, List.cons.injEq] at h
      exact absurd (h.1 ▸ List.mem_cons_self _ _) ha2
  | cons y ys ih =>
    cases a2 with
    | nil =>
      simp only [List.nil_append, List.cons_append, List.cons.injEq] at h
      exact absurd (h.1 ▸ List.mem_cons_self _ _) ha
    | cons x xs =>
      simp only [List.cons_append, List.cons.injEq] at h
      have := ih xs (fun hm => ha (List.mem_cons_of_mem _ hm))
        (fun hm => ha2 (List.mem_cons_of_mem _ hm)) h.2
      exact ⟨by rw [h.1, this.1], this.2⟩

theorem space_not_mem_itoa (x : Int) : ' ' ∉ itoa x := by
  intro h
  rcases appendInt_chars x 0 ' ' h with h1 | h1
  · revert h1
    decide
  · revert h1
    decide

theorem sprint2_inj (p q : Int × Int) (h : sprint2 p = sprint2 q) : p = q := by
  unfold sprint2 at h
  have h2 := append_sep_inj ' ' _ _ _ _ (space_not_mem_itoa p.1) (space_not_mem_itoa q.1) h
  exact Prod.ext (appendInt_inj _ _ 0 h2.1) (appendInt_inj _ _ 0 h2.2)

theorem bne_eq_decide_of_iff {α β : Type} [BEq α] [LawfulBEq α] [DecidableEq β] (a b : α)
    (c d : β) (h : a = b ↔ c = d) : (a != b) = decide (c ≠ d) := by
  by_cases hab : a = b
  · have hcd := h.1 hab
    simp [hab, hcd]
  · have hcd : ¬ c = d := fun hc => hab (h.2 hc)
    simp [hab, hcd]

/-- The calendar switch of `AutoRotate` compares the fields of the duration code. -/
theorem calendarRotate_eq (d : RotationDuration) (last now : Time) (hv : Valid d = true) :
    calendarRotate d last now = decide (granularity d last ≠ granularity d now) := by
  unfold calendarRotate granularity
  by_cases h1 : d = Minutely
  · simp only [if_pos h1]
    apply bne_eq_decide_of_iff
    have := Format_year_eq_iff last now layoutMinute.tail (by decide)
    simpa [layoutMinute, chunkField] using this
  simp only [if_neg h1]
  by_cases h2 : d = Hourly
  · simp only [if_pos h2]
    apply bne_eq_decide_of_iff
    have := Format_year_eq_iff last now layoutHour.tail (by decide)
    simpa [layoutHour, chunkField] using this
  simp only [if_neg h2]
  by_cases h3 : d = Daily
  · simp only [if_pos h3]
    apply bne_eq_decide_of_iff
    have := Format_year_eq_iff last now layoutDay.tail (by decide)
    simpa [layoutDay, chunkField] using this
  simp only [if_neg h3]
  by_cases h4 : d = Weekly
  · simp only [if_pos h4]
    apply bne_eq_decide_of_iff
    constructor
    · intro h
      rw [sprint2_inj _ _ h]
    · intro h
      simp only [List.cons.injEq, and_true] at h
      rw [Prod.ext h.1 h.2]
  simp only [if_neg h4]
  by_cases h5 : d = 0 ∨ d = Monthly
  · simp only [if_pos h5]
    apply bne_eq_decide_of_iff
    have := Format_year_eq_iff last now layoutMonth.tail (by decide)
    simpa [layoutMonth, chunkField] using this
  simp only [if_neg h5]
  have h6 : d = Yearly := by
    simp only [Valid, Bool.or_eq_true, decide_eq_true_eq] at hv
    tauto
  rw [if_pos h6]
  apply bne_eq_decide_of_iff
  simp

/-! ## The rotation decision -/

theorem wrapInt64_of_fits (x : Int) (h0 : 0 ≤ x) (h1 : x < 2 ^ 63) : wrapInt64 x = x := by
  unfold wrapInt64
  omega

/-- C1: with a configured threshold `maxSize > 0`, a current size `s` and a write of `n`
bytes (sizes are non-negative and their sum is within `int64`), `AutoRotate` calls `Rotate`
whenever `s + n > maxSize`, whatever the duration code and the two timestamps are, and when
`s + n <= maxSize` the size check does not rotate: the outcome is that of the calendar
check. -/
theorem AutoRotate_size_check_dominates (opt : Options) (s n : Int) (last now : Time)
    (hmax : 0 < opt.MaxSize) (hs : 0 ≤ s) (hn : 0 ≤ n) (hfit : s + n < 2 ^ 63) :
    (opt.MaxSize < s + n → AutoRotate opt (some s) last now n = .rotate) ∧
      (s + n ≤ opt.MaxSize →
        AutoRotate opt (some s) last now n = calendarDecision opt.Duration last now) := by
  have hw := wrapInt64_of_fits (s + n) (by omega) hfit
  unfold AutoRotate
  simp only [hw]
  rw [if_pos (by omega)]
  constructor
  · intro h
    rw [if_pos (by omega)]
  · intro h
    rw [if_neg (by omega)]

/-- C1, witness: with `maxSize = 10`, a first write of 6 bytes into the empty file does not
rotate and a second write of 6 bytes rotates before appending (6 + 6 > 10). -/
theorem AutoRotate_size_check_dominates_witness :
    ((0 : Int) < sizeTenOptions.MaxSize ∧ (0 : Int) ≤ 6 ∧ (6 : Int) + 6 < 2 ^ 63) ∧
      AutoRotate sizeTenOptions (some 0) jan15Late jan15Late 6 = .keep ∧
      AutoRotate sizeTenOptions (some 6) jan15Late jan15Late 6 = .rotate :=
  ⟨by decide, by decide,
    (AutoRotate_size_check_dominates sizeTenOptions 6 6 jan15Late jan15Late (by decide)
      (by decide) (by decide) (by decide)).1 (by decide)⟩

/-- C2: with size-based rotation disabled (`maxSize < 0`) and a valid duration code,
`AutoRotate` calls `Rotate` exactly when the last-rotation timestamp and the current time
differ in the fields of that code (minute: year, month, day, hour, minute; hour: year,
month, day, hour; day: year, month, day; week: ISO year and week; month or unset: year and
month; year: year), and otherwise leaves the file in place. -/
theorem AutoRotate_calendar_check (opt : Options) (seekEnd : Option Int) (last now : Time)
    (n : Int) (hoff : opt.MaxSize < 0) (hv : Valid opt.Duration = true) :
    AutoRotate opt seekEnd last now n =
      if granularity opt.Duration last = granularity opt.Duration now then .keep
      else .rotate := by
  unfold AutoRotate
  simp only []
  rw [if_neg (by omega)]
  unfold calendarDecision
  rw [calendarRotate_eq _ _ _ hv]
  by_cases h : granularity opt.Duration last = granularity opt.Duration now
  · simp [h]
  · simp [h]

/-- C2, witness: daily rotation, last rotation at 2024-01-15 23:59:59: a write at
2024-01-16 00:00:01 rotates, a write at 2024-01-15 23:59:59 does not. -/
theorem AutoRotate_calendar_check_witness :
    (dailyOptions.MaxSize < 0 ∧ Valid dailyOptions.Duration = true) ∧
      AutoRotate dailyOptions (some 0) jan15Late jan16Early 6 = .rotate ∧
      AutoRotate dailyOptions (some 0) jan15Late jan15Late 6 = .keep :=
  ⟨by decide,
    (AutoRotate_calendar_check dailyOptions (some 0) jan15Late jan16Early 6 (by decide)
      (by decide)).trans (by decide),
    (AutoRotate_calendar_check dailyOptions (some 0) jan15Late jan15Late 6 (by decide)
      (by decide)).trans (by decide)⟩

/-- C3: with `maxSize = 0` the comparison of `AutoRotate` reads the option (0) and not the
default of 10 MiB: a write of one byte into an empty file rotates, although
`0 + 1 <= 10 MiB` and no calendar boundary is crossed. -/
theorem AutoRotate_zero_maxSize_rotates :
    MaxSize = 10 * 1024 * 1024 ∧ (0 : Int) + 1 ≤ MaxSize ∧
      calendarDecision defaultSizeOptions.Duration jan15Late jan15Late = .keep ∧
      AutoRotate defaultSizeOptions (some 0) jan15Late jan15Late 1 = .rotate := by
  decide

/-! ## Token substitution -/

theorem replaceScan_nil (old new : List Char) (k : Nat) : replaceScan old new k [] = [] := by
  cases k <;> rfl

theorem replaceScan_skip (c x : Char) (v l : List Char) (hx : x ≠ '%') :
    replaceScan ['%', c] v 0 (x :: l) = x :: replaceScan ['%', c] v 0 l := by
  have : List.isPrefixOf ['%', c] (x :: l) = false := by
    simp [List.isPrefixOf, Ne.symm hx]
  simp [replaceScan, this]

theorem replaceScan_match (c : Char) (v l : List Char) :
    replaceScan ['%', c] v 0 ('%' :: c :: l) = v ++ replaceScan ['%', c] v 0 l := by
  simp [replaceScan, List.isPrefixOf]

theorem replaceScan_percent (c : Char) (v l : List Char) (hl : l.head? ≠ some c) :
    replaceScan ['%', c] v 0 ('%' :: l) = '%' :: replaceScan ['%', c] v 0 l := by
  have : List.isPrefixOf ['%', c] ('%' :: l) = false := by
    cases l with
    | nil => simp [List.isPrefixOf]
    | cons y ys =>
      have hy : ¬ c = y := fun h => hl (by simp [h])
      simp [List.isPrefixOf, hy]
  simp [replaceScan, this]

theorem replaceScan_clean_append (c : Char) (v w u : List Char) (hw : '%' ∉ w) :
    replaceScan ['%', c] v 0 (w ++ u) = w ++ replaceScan ['%', c] v 0 u := by
  induction w with
  | nil => rfl
  | cons x xs ih =>
    have hx : x ≠ '%' := fun h => hw (h ▸ List.mem_cons_self _ _)
    rw [List.cons_append, replaceScan_skip c x v _ hx,
      ih (fun h => hw (List.mem_cons_of_mem _ h)), List.cons_append]

/-- The first byte of a substituted string is not `c` when the template does not start
with `c` and no value starts with `c`. -/
theorem substTokens_head (val : Char → Option (List Char)) (c y : Char) (rest : List Char)
    (hval : ∀ k w, val k = some w → w ≠ [] ∧ '%' ∉ w ∧ w.head? ≠ some c) (hy : y ≠ c) :
    (substTokens val (y :: rest)).head? ≠ some c := by
  cases rest with
  | nil => simpa [substTokens] using hy
  | cons z zs =>
    unfold substTokens
    split
    · split
      · rename_i w hw
        have h := hval z w hw
        cases w with
        | nil => exact absurd rfl h.1
        | cons a as => simpa using h.2.2
      · simpa using hy
    · simpa using hy

/-- Replacing the token `%c` in a string where the tokens of `val` are already substituted
is the substitution of the tokens of `val` and of `%c` in one pass. -/
theorem ReplaceAll_substTokens (val : Char → Option (List Char)) (c : Char) (v : List Char)
    (hc : c ≠ '%') (hnew : val c = none)
    (hval : ∀ k w, val k = some w → w ≠ [] ∧ '%' ∉ w ∧ w.head? ≠ some c) (s : List Char) :
    ReplaceAll (substTokens val s) ['%', c] v = substTokens (extendVal val c v) s := by
  unfold ReplaceAll
  suffices H : ∀ n (s : List Char), s.length ≤ n →
      replaceScan ['%', c] v 0 (substTokens val s) = substTokens (extendVal val c v) s from
    H s.length s (Nat.le_refl _)
  intro n
  induction n with
  | zero =>
    intro s hs
    have : s = [] := List.length_eq_zero.1 (Nat.le_zero.1 hs)
    subst this
    rfl
  | succ n ih =>
    intro s hs
    match s, hs with
    | [], _ => rfl
    | [x], _ =>
      by_cases hx : x = '%'
      · subst hx
        simp [substTokens, replaceScan, List.isPrefixOf]
      · simp [substTokens, replaceScan_skip c x v [] hx, replaceScan]
    | x :: y :: rest, hs =>
      have hlen1 : (y :: rest).length ≤ n := by
        simp only [List.length_cons] at hs ⊢
        omega
      have hlen2 : rest.length ≤ n := by
        simp only [List.length_cons] at hs ⊢
        omega
      by_cases hx : x = '%'
      · subst hx
        cases hvy : val y with
        | some w =>
          have hyc : y ≠ c := fun h => by
            rw [h, hnew] at hvy
            exact Option.noConfusion hvy
          have e1 : substTokens val ('%' :: y :: rest) = w ++ substTokens val rest := by
            simp [substTokens, hvy]
          have e2 : substTokens (extendVal val c v) ('%' :: y :: rest) =
              w ++ substTokens (extendVal val c v) rest := by
            simp [substTokens, extendVal, hyc, hvy]
          rw [e1, e2, replaceScan_clean_append c v w _ (hval y w hvy).2.1, ih rest hlen2]
        | none =>
          have e1 : substTokens val ('%' :: y :: rest) = '%' :: substTokens val (y :: rest) := by
            simp [substTokens, hvy]
          by_cases hyc : y = c
          · subst hyc
            have e3 : substTokens val (y :: rest) = y :: substTokens val rest := by
              cases rest with
              | nil => rfl
              | cons z zs => simp [substTokens, hc]
            have e2 : substTokens (extendVal val y v) ('%' :: y :: rest) =
                v ++ substTokens (extendVal val y v) rest := by
              simp [substTokens, extendVal]
            rw [e1, e3, e2, replaceScan_match, ih rest hlen2]
          · have e2 : substTokens (extendVal val c v) ('%' :: y :: rest) =
                '%' :: substTokens (extendVal val c v) (y :: rest) := by
              simp [substTokens, extendVal, hyc, hvy]
            rw [e1, e2, replaceScan_percent c v _ (substTokens_head val c y rest hval hyc),
              ih (y :: rest) hlen1]
      · have e1 : substTokens val (x :: y :: rest) = x :: substTokens val (y :: rest) := by
          simp [substTokens, hx]
        have e2 : substTokens (extendVal val c v) (x :: y :: rest) =
            x :: substTokens (extendVal val c v) (y :: rest) := by
          simp [substTokens, hx]
        rw [e1, e2, replaceScan_skip c x v _ hx, ih (y :: rest) hlen1]

theorem substTokens_none (s : List Char) : substTokens (fun _ => none) s = s := by
  suffices H : ∀ n (s : List Char), s.length ≤ n → substTokens (fun _ => none) s = s from
    H s.length s (Nat.le_refl _)
  intro n
  induction n with
  | zero =>
    intro s hs
    have : s = [] := List.length_eq_zero.1 (Nat.le_zero.1 hs)
    subst this
    rfl
  | succ n ih =>
    intro s hs
    match s, hs with
    | [], _ => rfl
    | [x], _ => rfl
    | x :: y :: rest, hs =>
      have hlen1 : (y :: rest).length ≤ n := by
        simp only [List.length_cons] at hs ⊢
        omega
      simp [substTokens, ih (y :: rest) hlen1]

theorem Format_single (t : Time) (c : Chunk) : t.Format [c] = t.formatChunk c := by
  simp [Time.Format]

/-- Values made of digits and minus signs meet the side conditions of
`ReplaceAll_substTokens` for a token byte that is neither. -/
theorem numeric_side (val : Char → Option (List Char)) (c : Char) (hcd : isDigit c = false)
    (hcm : c ≠ '-')
    (hnum : ∀ k w, val k = some w → w ≠ [] ∧ ∀ ch ∈ w, isDigit ch = true ∨ ch = '-') :
    ∀ k w, val k = some w → w ≠ [] ∧ '%' ∉ w ∧ w.head? ≠ some c := by
  intro k w hw
  obtain ⟨hne, hch⟩ := hnum k w hw
  refine ⟨hne, ?_, ?_⟩
  · intro hm
    rcases hch _ hm with h | h
    · revert h
      decide
    · revert h
      decide
  · cases w with
    | nil => exact absurd rfl hne
    | cons a as =>
      intro h
      simp only [List.head?_cons, Option.some.injEq] at h
      rcases hch a (List.mem_cons_self _ _) with h1 | h1
      · rw [h, hcd] at h1
        exact Bool.noConfusion h1
      · exact hcm (h ▸ h1)

theorem extendVal_numeric (val : Char → Option (List Char)) (c : Char) (x : Int) (width : Nat)
    (hnum : ∀ k w, val k = some w → w ≠ [] ∧ ∀ ch ∈ w, isDigit ch = true ∨ ch = '-') :
    ∀ k w, extendVal val c (appendInt x width) k = some w →
      w ≠ [] ∧ ∀ ch ∈ w, isDigit ch = true ∨ ch = '-' := by
  intro k w hw
  unfold extendVal at hw
  split at hw
  · simp only [Option.some.injEq] at hw
    subst hw
    exact ⟨appendInt_ne_nil x width, appendInt_chars x width⟩
  · exact hnum k w hw

/-- The seven nested `ReplaceAll` calls of `TFormat` amount to one pass that substitutes
the seven tokens. -/
theorem replaceChain_eq (t : Time) (fmt : List Char) :
    ReplaceAll
      (ReplaceAll
        (ReplaceAll
          (ReplaceAll
            (ReplaceAll
              (ReplaceAll
                (ReplaceAll fmt
                  "%Y".toList (t.Format [.stdLongYear]))
                "%M".toList (t.Format [.stdZeroMonth]))
              "%D".toList (t.Format [.stdZeroDay]))
            "%h".toList (t.Format [.stdHour]))
          "%m".toList (t.Format [.stdZeroMinute]))
        "%s".toList (t.Format [.stdZeroSecond]))
      "%Z".toList (t.Format [.stdISO8601TZ]) = substTokens (tokenValue t) fmt := by
  simp only [Format_single, Time.formatChunk]
  have n0 : ∀ k w, (fun _ : Char => (none : Option (List Char))) k = some w →
      w ≠ [] ∧ ∀ ch ∈ w, isDigit ch = true ∨ ch = '-' := by
    intro k w h
    exact Option.noConfusion h
  have n1 := extendVal_numeric _ 'Y' t.Year 4 n0
  have n2 := extendVal_numeric _ 'M' t.Month 2 n1
  have n3 := extendVal_numeric _ 'D' t.Day 2 n2
  have n4 := extendVal_numeric _ 'h' t.Hour 2 n3
  have n5 := extendVal_numeric _ 'm' t.Minute 2 n4
  have n6 := extendVal_numeric _ 's' t.Second 2 n5
  have s1 := ReplaceAll_substTokens _ 'Y' (appendInt t.Year 4) (by decide) rfl
    (numeric_side _ 'Y' (by decide) (by decide) n0) fmt
  have s2 := ReplaceAll_substTokens _ 'M' (appendInt t.Month 2) (by decide) rfl
    (numeric_side _ 'M' (by decide) (by decide) n1) fmt
  have s3 := ReplaceAll_substTokens _ 'D' (appendInt t.Day 2) (by decide) rfl
    (numeric_side _ 'D' (by decide) (by decide) n2) fmt
  have s4 := ReplaceAll_substTokens _ 'h' (appendInt t.Hour 2) (by decide) rfl
    (numeric_side _ 'h' (by decide) (by decide) n3) fmt
  have s5 := ReplaceAll_substTokens _ 'm' (appendInt t.Minute 2) (by decide) rfl
    (numeric_side _ 'm' (by decide) (by decide) n4) fmt
  have s6 := ReplaceAll_substTokens _ 's' (appendInt t.Second 2) (by decide) rfl
    (numeric_side _ 's' (by decide) (by decide) n5) fmt
  have s7 := ReplaceAll_substTokens _ 'Z' (formatZone t.offset) (by decide) rfl
    (numeric_side _ 'Z' (by decide) (by decide) n6) fmt
  rw [substTokens_none] at s1
  change ReplaceAll (ReplaceAll (ReplaceAll (ReplaceAll (ReplaceAll (ReplaceAll (ReplaceAll fmt
    ['%', 'Y'] _) ['%', 'M'] _) ['%', 'D'] _) ['%', 'h'] _) ['%', 'm'] _) ['%', 's'] _)
    ['%', 'Z'] _ = _
  rw [s1, s2, s3, s4, s5, s6, s7]
  rfl

theorem TFormat_eq_substTokens (t : Time) (fmt : List Char) :
    TFormat t fmt =
      substTokens (tokenValue (if Contains fmt "%Z".toList then t else t.UTC)) fmt := by
  unfold TFormat
  simp only []
  rw [replaceChain_eq]
  cases Contains fmt "%Z".toList <;> simp

/-! ## Widths of the rendered fields -/

theorem digitsFuel_length_le (fuel n k : Nat) (hk : 0 < k) (hn : n < 10 ^ k) :
    (digitsFuel fuel n).length ≤ k := by
  induction fuel generalizing n k with
  | zero => simp [digitsFuel]
  | succ f ih =>
    unfold digitsFuel
    split
    · simpa using hk
    · rename_i h10
      obtain ⟨j, rfl⟩ : ∃ j, k = j + 1 := ⟨k - 1, by omega⟩
      have hj : 0 < j := by
        rcases Nat.eq_zero_or_pos j with h | h
        · subst h
          simp at hn
          omega
        · exact h
      have hdiv : n / 10 < 10 ^ j := by
        rw [Nat.pow_succ] at hn
        omega
      have := ih (n / 10) j hj hdiv
      simp only [List.length_append, List.length_singleton]
      omega

/-- A non-negative integer below `10 ^ width` is rendered on exactly `width` digits. -/
theorem appendInt_fixed (x : Int) (width : Nat) (hw : 0 < width) (h0 : 0 ≤ x)
    (h1 : x < 10 ^ width) :
    (appendInt x width).length = width ∧ ∀ c ∈ appendInt x width, isDigit c = true := by
  have hn : x.natAbs < 10 ^ width := by
    have : (x.natAbs : Int) = x := Int.natAbs_of_nonneg h0
    have h2 : (x.natAbs : Int) < ((10 ^ width : Nat) : Int) := by
      rw [this]
      exact_mod_cast h1
    exact_mod_cast h2
  have hlen := digitsFuel_length_le (x.natAbs + 1) x.natAbs width hw hn
  unfold appendInt
  simp only []
  rw [if_neg (by omega)]
  refine ⟨?_, padBody_isDigit _ _⟩
  rw [List.length_append, List.length_replicate]
  unfold utod
  omega

/-- A non-zero offset of less than a hundred hours is rendered as a sign and four digits. -/
theorem formatZone_shape (offset : Int) (h0 : offset ≠ 0) (hlo : -360000 < offset)
    (hhi : offset < 360000) :
    ∃ sgn body, formatZone offset = sgn :: body ∧ (sgn = '+' ∨ sgn = '-') ∧
      body.length = 4 ∧ ∀ c ∈ body, isDigit c = true := by
  unfold formatZone
  rw [if_neg h0]
  simp only []
  have key : ∀ z : Int, 0 ≤ z → z < 6000 →
      (appendInt (Int.tdiv z 60) 2 ++ appendInt (Int.tmod z 60) 2).length = 4 ∧
        ∀ c ∈ appendInt (Int.tdiv z 60) 2 ++ appendInt (Int.tmod z 60) 2, isDigit c = true := by
    intro z hz0 hz1
    rw [Int.tdiv_eq_ediv hz0 (by decide), Int.tmod_eq_emod hz0 (by decide)]
    have a := appendInt_fixed (z / 60) 2 (by decide) (by omega) (by norm_num; omega)
    have b := appendInt_fixed (z % 60) 2 (by decide) (by omega) (by norm_num; omega)
    refine ⟨by rw [List.length_append, a.1, b.1], ?_⟩
    intro c hc
    rcases List.mem_append.1 hc with h | h
    · exact a.2 c h
    · exact b.2 c h
  have hz : -6000 < Int.tdiv offset 60 ∧ Int.tdiv offset 60 < 6000 := by
    rcases Int.le_total 0 offset with h | h
    · rw [Int.tdiv_eq_ediv h (by decide)]
      omega
    · have e : Int.tdiv offset 60 = -((-offset) / 60) := by
        rw [← Int.tdiv_eq_ediv (by omega) (by decide), Int.neg_tdiv, Int.neg_neg]
      rw [e]
      omega
  split
  · have k := key (-(Int.tdiv offset 60)) (by omega) (by omega)
    exact ⟨'-', _, rfl, Or.inr rfl, k.1, k.2⟩
  · have k := key (Int.tdiv offset 60) (by omega) (by omega)
    exact ⟨'+', _, rfl, Or.inl rfl, k.1, k.2⟩

/-! ## `TFormat` -/

/-- C5: for a template that does not contain `%Z`, two time values that denote the same
instant (same Unix seconds and nanoseconds) in whatever zones are formatted to the same
string. -/
theorem TFormat_zone_invariant (t u : Time) (fmt : List Char)
    (hZ : Contains fmt "%Z".toList = false) (hsec : t.sec = u.sec) (hnsec : t.nsec = u.nsec) :
    TFormat t fmt = TFormat u fmt := by
  have e : t.UTC = u.UTC := by
    simp [Time.UTC, hsec, hnsec]
  unfold TFormat
  simp only [hZ, Bool.not_false, if_true, e]

/-- C5, witness: 21:30:45 at +0700 and 14:30:45 UTC are one instant, and a template without
`%Z` formats both to the UTC reading. -/
theorem TFormat_zone_invariant_witness :
    (Contains "%Y/%M/%D %h:%m:%s".toList "%Z".toList = false ∧
        afternoonEast.sec = afternoonUTC.sec ∧ afternoonEast.nsec = afternoonUTC.nsec) ∧
      afternoonEast.loc ≠ afternoonUTC.loc ∧
      TFormat afternoonEast "%Y/%M/%D %h:%m:%s".toList = "2024/01/15 14:30:45".toList ∧
      TFormat afternoonEast "%Y/%M/%D %h:%m:%s".toList =
        TFormat afternoonUTC "%Y/%M/%D %h:%m:%s".toList :=
  ⟨by decide, by decide, by decide,
    TFormat_zone_invariant afternoonEast afternoonUTC "%Y/%M/%D %h:%m:%s".toList (by decide)
      (by decide) (by decide)⟩

/-- C6, as stated, fails: at 21:30:45 +0700 the template `%h` (no `%Z`) gives `14`, the hour
of the UTC reading, and not `21`, the hour of the time value. -/
theorem TFormat_own_fields_counterexample :
    afternoonEast.Hour = 21 ∧ TFormat afternoonEast "%h".toList = "14".toList ∧
      TFormat afternoonEast "%h".toList ≠
        substTokens (tokenValue afternoonEast) "%h".toList := by
  decide

/-- C6, amended: `TFormat` returns the template with, in one left-to-right pass, every
`%Y`, `%M`, `%D`, `%h`, `%m`, `%s`, `%Z` replaced and every other byte (unrecognised `%`
sequences included) copied. The fields are those of `t` when the template contains `%Z`
and those of `t` converted to UTC otherwise. Month, day, hour, minute and second are
always two digits; the year is zero-padded to four digits and is exactly four digits for
the years 0 to 9999; `%Z` gives `Z` for a zone offset of zero and otherwise a sign and
four digits (hours and minutes, for offsets under a hundred hours). -/
theorem TFormat_token_substitution (t : Time) (fmt : List Char) :
    TFormat t fmt =
        substTokens (tokenValue (if Contains fmt "%Z".toList then t else t.UTC)) fmt ∧
      (∀ u : Time, ∀ x ∈ [u.Month, u.Day, u.Hour, u.Minute, u.Second],
        (appendInt x 2).length = 2 ∧ ∀ c ∈ appendInt x 2, isDigit c = true) ∧
      (∀ u : Time, 0 ≤ u.Year → u.Year ≤ 9999 →
        (appendInt u.Year 4).length = 4 ∧ ∀ c ∈ appendInt u.Year 4, isDigit c = true) ∧
      formatZone 0 = ['Z'] ∧
      (∀ offset : Int, offset ≠ 0 → -360000 < offset → offset < 360000 →
        ∃ sgn body, formatZone offset = sgn :: body ∧ (sgn = '+' ∨ sgn = '-') ∧
          body.length = 4 ∧ ∀ c ∈ body, isDigit c = true) := by
  refine ⟨TFormat_eq_substTokens t fmt, ?_, ?_, rfl, formatZone_shape⟩
  · intro u x hx
    have hb : 0 ≤ x ∧ x < 100 := by
      simp only [List.mem_cons, List.mem_singleton, List.not_mem_nil, or_false] at hx
      rcases hx with h | h | h | h | h
      · exact h ▸ Month_bounds u
      · exact h ▸ Day_bounds u
      · exact h ▸ Hour_bounds u
      · exact h ▸ Minute_bounds u
      · exact h ▸ Second_bounds u
    exact appendInt_fixed x 2 (by decide) hb.1 (by norm_num; omega)
  · intro u h0 h1
    exact appendInt_fixed u.Year 4 (by decide) h0 (by norm_num; omega)

/-- C6, witness: the template `%Y-%M-%D %h:%m:%s %Z %q` at 21:30:45 +0700 keeps the zone of
the time value, and the year and the zone marker have the stated shapes there. -/
theorem TFormat_token_substitution_witness :
    TFormat afternoonEast "%Y-%M-%D %h:%m:%s %Z %q".toList =
        "2024-01-15 21:30:45 +0700 %q".toList ∧
      ((0 ≤ afternoonEast.Year ∧ afternoonEast.Year ≤ 9999) ∧
        (appendInt afternoonEast.Year 4).length = 4) ∧
      ((afternoonEast.offset ≠ 0 ∧ -360000 < afternoonEast.offset ∧
          afternoonEast.offset < 360000) ∧
        ∃ sgn body, formatZone afternoonEast.offset = sgn :: body ∧ (sgn = '+' ∨ sgn = '-') ∧
          body.length = 4 ∧ ∀ c ∈ body, isDigit c = true) :=
  ⟨(TFormat_token_substitution afternoonEast "%Y-%M-%D %h:%m:%s %Z %q".toList).1.trans
      (by decide),
    ⟨by decide,
      ((TFormat_token_substitution afternoonEast []).2.2.1 afternoonEast (by decide)
        (by decide)).1⟩,
    ⟨by decide,
      (TFormat_token_substitution afternoonEast []).2.2.2.2 afternoonEast.offset (by decide)
        (by decide) (by decide)⟩⟩

/-! ## Paths: elements, `Clean` and `Join` under token substitution -/

theorem splitPath_ne_nil (p : List Char) : splitPath p ≠ [] := by
  cases p with
  | nil => simp [splitPath]
  | cons c cs =>
    unfold splitPath
    split
    · simp
    · split <;> simp

theorem splitPath_cons_ne (c : Char) (cs e : List Char) (es : List (List Char)) (hc : c ≠ '/')
    (h : splitPath cs = e :: es) : splitPath (c :: cs) = (c :: e) :: es := by
  rw [splitPath, if_neg hc, h]

theorem splitPath_no_sep (a : List Char) (ha : '/' ∉ a) : splitPath a = [a] := by
  induction a with
  | nil => rfl
  | cons c cs ih =>
    have hc : c ≠ '/' := fun h => ha (h ▸ List.mem_cons_self _ _)
    exact splitPath_cons_ne c cs cs [] hc (ih (fun h => ha (List.mem_cons_of_mem _ h)))

theorem splitPath_append_sep (a b : List Char) (ha : '/' ∉ a) :
    splitPath (a ++ '/' :: b) = a :: splitPath b := by
  induction a with
  | nil => simp [splitPath]
  | cons c cs ih =>
    have hc : c ≠ '/' := fun h => ha (h ▸ List.mem_cons_self _ _)
    rw [List.cons_append]
    exact splitPath_cons_ne c _ cs _ hc (ih (fun h => ha (List.mem_cons_of_mem _ h)))

theorem splitPath_no_sep_mem (p : List Char) : ∀ e ∈ splitPath p, '/' ∉ e := by
  induction p with
  | nil => simp [splitPath]
  | cons c cs ih =>
    unfold splitPath
    split
    · intro e he
      rcases List.mem_cons.1 he with h | h
      · simp [h]
      · exact ih e h
    · rename_i hc
      split
      · intro e he
        simp only [List.mem_singleton] at he
        subst he
        simpa using Ne.symm hc
      · rename_i e0 es heq
        intro e he
        rw [heq] at ih
        rcases List.mem_cons.1 he with h | h
        · subst h
          intro hm
          rcases List.mem_cons.1 hm with h1 | h1
          · exact hc h1.symm
          · exact ih e0 (List.mem_cons_self _ _) h1
        · exact ih e (List.mem_cons_of_mem _ h)

theorem joinPath_cons (e : List Char) (es : List (List Char)) (h : es ≠ []) :
    joinPath (e :: es) = e ++ '/' :: joinPath es := by
  cases es with
  | nil => exact absurd rfl h
  | cons x xs => rfl

theorem joinPath_cons_cons (c : Char) (e : List Char) (es : List (List Char)) :
    joinPath ((c :: e) :: es) = c :: joinPath (e :: es) := by
  cases es with
  | nil => rfl
  | cons x xs => rfl

theorem joinPath_splitPath (p : List Char) : joinPath (splitPath p) = p := by
  induction p with
  | nil => rfl
  | cons c cs ih =>
    unfold splitPath
    split
    · rename_i hc
      rw [joinPath_cons _ _ (splitPath_ne_nil cs), ih, hc]
      rfl
    · split
      · rename_i heq
        exact absurd heq (splitPath_ne_nil cs)
      · rename_i e es heq
        rw [joinPath_cons_cons, ← heq, ih]

theorem splitPath_joinPath (es : List (List Char)) (hne : es ≠ [])
    (hes : ∀ e ∈ es, '/' ∉ e) : splitPath (joinPath es) = es := by
  induction es with
  | nil => exact absurd rfl hne
  | cons e rest ih =>
    cases rest with
    | nil => exact splitPath_no_sep e (hes e (List.mem_cons_self _ _))
    | cons x xs =>
      rw [joinPath_cons _ _ (by simp), splitPath_append_sep _ _ (hes e (List.mem_cons_self _ _)),
        ih (by simp) (fun d hd => hes d (List.mem_cons_of_mem _ hd))]

/-- Substitution goes through a byte that is neither `%` nor a token byte. -/
theorem substTokens_append_sep (val : Char → Option (List Char)) (sep : Char)
    (hsep : val sep = none) (hpc : sep ≠ '%') (a b : List Char) :
    substTokens val (a ++ sep :: b) = substTokens val a ++ sep :: substTokens val b := by
  have base : ∀ b : List Char, substTokens val (sep :: b) = sep :: substTokens val b := by
    intro b
    cases b with
    | nil => rfl
    | cons y r => simp [substTokens, hpc]
  suffices H : ∀ n (a : List Char), a.length ≤ n →
      substTokens val (a ++ sep :: b) = substTokens val a ++ sep :: substTokens val b from
    H a.length a (Nat.le_refl _)
  intro n
  induction n with
  | zero =>
    intro a ha
    have : a = [] := List.length_eq_zero.1 (Nat.le_zero.1 ha)
    subst this
    exact base b
  | succ n ih =>
    intro a ha
    match a, ha with
    | [], _ => exact base b
    | [x], _ =>
      by_cases hx : x = '%'
      · subst hx
        simp [substTokens, hsep, base]
      · simp [substTokens, hx, base]
    | x :: y :: r, ha =>
      have hlen1 : (y :: r).length ≤ n := by
        simp only [List.length_cons] at ha ⊢
        omega
      have hlen2 : r.length ≤ n := by
        simp only [List.length_cons] at ha ⊢
        omega
      have i1 := ih (y :: r) hlen1
      have i2 := ih r hlen2
      simp only [List.cons_append] at i1 ⊢
      by_cases hx : x = '%'
      · subst hx
        cases hvy : val y with
        | some w => simp [substTokens, hvy, i2]
        | none => simp [substTokens, hvy, i1]
      · simp [substTokens, hx, i1]

/-- Every byte of a substituted string comes from the template or from a value. -/
theorem substTokens_mem (val : Char → Option (List Char)) (s : List Char) :
    ∀ ch ∈ substTokens val s, ch ∈ s ∨ ∃ k w, val k = some w ∧ ch ∈ w := by
  suffices H : ∀ n (s : List Char), s.length ≤ n →
      ∀ ch ∈ substTokens val s, ch ∈ s ∨ ∃ k w, val k = some w ∧ ch ∈ w from
    H s.length s (Nat.le_refl _)
  intro n
  induction n with
  | zero =>
    intro s hs
    have : s = [] := List.length_eq_zero.1 (Nat.le_zero.1 hs)
    subst this
    simp [substTokens]
  | succ n ih =>
    intro s hs
    match s, hs with
    | [], _ => simp [substTokens]
    | [x], _ =>
      intro ch hch
      exact Or.inl hch
    | x :: y :: r, hs =>
      have hlen1 : (y :: r).length ≤ n := by
        simp only [List.length_cons] at hs ⊢
        omega
      have hlen2 : r.length ≤ n := by
        simp only [List.length_cons] at hs ⊢
        omega
      intro ch hch
      have tailCase : ch ∈ x :: substTokens val (y :: r) →
          ch ∈ x :: y :: r ∨ ∃ k w, val k = some w ∧ ch ∈ w := by
        intro h
        rcases List.mem_cons.1 h with h1 | h1
        · exact Or.inl (h1 ▸ List.mem_cons_self _ _)
        · rcases ih (y :: r) hlen1 ch h1 with h2 | h2
          · exact Or.inl (List.mem_cons_of_mem _ h2)
          · exact Or.inr h2
      by_cases hx : x = '%'
      · cases hvy : val y with
        | some w =>
          have e : substTokens val (x :: y :: r) = w ++ substTokens val r := by
            simp [substTokens, hx, hvy]
          rw [e] at hch
          rcases List.mem_append.1 hch with h1 | h1
          · exact Or.inr ⟨y, w, hvy, h1⟩
          · rcases ih r hlen2 ch h1 with h2 | h2
            · exact Or.inl (List.mem_cons_of_mem _ (List.mem_cons_of_mem _ h2))
            · exact Or.inr h2
        | none =>
          have e : substTokens val (x :: y :: r) = x :: substTokens val (y :: r) := by
            simp [substTokens, hx, hvy]
          rw [e] at hch
          exact tailCase hch
      · have e : substTokens val (x :: y :: r) = x :: substTokens val (y :: r) := by
          simp [substTokens, hx]
        rw [e] at hch
        exact tailCase hch

/-- A template without `%` is left as it is. -/
theorem substTokens_no_percent (val : Char → Option (List Char)) (s : List Char)
    (hs : '%' ∉ s) : substTokens val s = s := by
  induction s with
  | nil => rfl
  | cons x xs ih =>
    have hx : x ≠ '%' := fun h => hs (h ▸ List.mem_cons_self _ _)
    have hxs := ih (fun h => hs (List.mem_cons_of_mem _ h))
    cases xs with
    | nil => rfl
    | cons y r => simp [substTokens, hx, hxs]

/-- A template with a `%` is substituted to a string with a byte other than the dot. -/
theorem substTokens_percent (val : Char → Option (List Char))
    (hv : ∀ k w, val k = some w → w ≠ [] ∧ '/' ∉ w ∧ '.' ∉ w) (s : List Char)
    (hs : '%' ∈ s) : ∃ ch ∈ substTokens val s, ch ≠ '.' := by
  induction s with
  | nil => simp at hs
  | cons x xs ih =>
    cases xs with
    | nil =>
      simp only [List.mem_singleton] at hs
      exact ⟨x, by simp [substTokens], by rw [← hs]; decide⟩
    | cons y r =>
      by_cases hx : x = '%'
      · cases hvy : val y with
        | some w =>
          obtain ⟨hne, _, hdot⟩ := hv y w hvy
          cases w with
          | nil => exact absurd rfl hne
          | cons a as =>
            refine ⟨a, by simp [substTokens, hx, hvy], ?_⟩
            intro h
            exact hdot (h ▸ List.mem_cons_self _ _)
        | none =>
          exact ⟨x, by simp [substTokens, hx, hvy], by rw [hx]; decide⟩
      · have hin : '%' ∈ y :: r := by
          rcases List.mem_cons.1 hs with h | h
          · exact absurd h.symm hx
          · exact h
        obtain ⟨ch, hch, hne⟩ := ih hin
        exact ⟨ch, by simp only [substTokens, hx, if_false]; exact List.mem_cons_of_mem _ hch,
          hne⟩

theorem substTokens_eq_nil (val : Char → Option (List Char))
    (hv : ∀ k w, val k = some w → w ≠ [] ∧ '/' ∉ w ∧ '.' ∉ w) (s : List Char) :
    substTokens val s = [] ↔ s = [] := by
  constructor
  · intro h
    by_cases hp : '%' ∈ s
    · obtain ⟨ch, hch, _⟩ := substTokens_percent val hv s hp
      rw [h] at hch
      simp at hch
    · rw [substTokens_no_percent val s hp] at h
      exact h
  · intro h
    subst h
    rfl

/-- Substitution keeps the elements that `Clean` treats specially, and makes no new one. -/
theorem substTokens_eq_dots (val : Char → Option (List Char))
    (hv : ∀ k w, val k = some w → w ≠ [] ∧ '/' ∉ w ∧ '.' ∉ w) (s d : List Char)
    (hd : ∀ ch ∈ d, ch = '.') : substTokens val s = d ↔ s = d := by
  have hd2 : '%' ∉ d := fun h => by
    have := hd _ h
    revert this
    decide
  constructor
  · intro h
    by_cases hp : '%' ∈ s
    · obtain ⟨ch, hch, hne⟩ := substTokens_percent val hv s hp
      rw [h] at hch
      exact absurd (hd ch hch) hne
    · rw [substTokens_no_percent val s hp] at h
      exact h
  · intro h
    subst h
    exact substTokens_no_percent val s hd2

theorem substTokens_no_sep (val : Char → Option (List Char))
    (hv : ∀ k w, val k = some w → w ≠ [] ∧ '/' ∉ w ∧ '.' ∉ w) (s : List Char)
    (hs : '/' ∉ s) : '/' ∉ substTokens val s := by
  intro h
  rcases substTokens_mem val s _ h with h1 | ⟨k, w, hw, h1⟩
  · exact hs h1
  · exact (hv k w hw).2.1 h1

theorem substTokens_joinPath (val : Char → Option (List Char)) (hsep : val '/' = none)
    (es : List (List Char)) :
    substTokens val (joinPath es) = joinPath (es.map (substTokens val)) := by
  induction es with
  | nil => rfl
  | cons e rest ih =>
    cases rest with
    | nil => rfl
    | cons x xs =>
      rw [joinPath_cons e (x :: xs) (by simp), substTokens_append_sep val '/' hsep (by decide),
        ih]
      exact (joinPath_cons (substTokens val e) ((x :: xs).map (substTokens val))
        (by simp)).symm

theorem splitPath_substTokens (val : Char → Option (List Char)) (hsep : val '/' = none)
    (hv : ∀ k w, val k = some w → w ≠ [] ∧ '/' ∉ w ∧ '.' ∉ w) (p : List Char) :
    splitPath (substTokens val p) = (splitPath p).map (substTokens val) := by
  conv_lhs => rw [← joinPath_splitPath p, substTokens_joinPath val hsep]
  apply splitPath_joinPath
  · simpa using splitPath_ne_nil p
  · intro e he
    obtain ⟨e0, he0, rfl⟩ := List.mem_map.1 he
    exact substTokens_no_sep val hv e0 (splitPath_no_sep_mem p e0 he0)

theorem cleanStep_substTokens (val : Char → Option (List Char))
    (hv : ∀ k w, val k = some w → w ≠ [] ∧ '/' ∉ w ∧ '.' ∉ w) (rooted : Bool)
    (out : List (List Char)) (dd : Nat) (e : List Char) :
    cleanStep rooted (out.map (substTokens val), dd) (substTokens val e) =
      (((cleanStep rooted (out, dd) e).1).map (substTokens val),
        (cleanStep rooted (out, dd) e).2) := by
  have h0 := substTokens_eq_nil val hv e
  have h1 := substTokens_eq_dots val hv e ['.'] (by simp)
  have h2 := substTokens_eq_dots val hv e ['.', '.'] (by simp)
  unfold cleanStep
  by_cases c0 : e = [] ∨ e = ['.']
  · have c0' : substTokens val e = [] ∨ substTokens val e = ['.'] := by
      rcases c0 with h | h
      · exact Or.inl (h0.2 h)
      · exact Or.inr (h1.2 h)
    rw [if_pos c0, if_pos c0']
  · have c0' : ¬ (substTokens val e = [] ∨ substTokens val e = ['.']) := by
      intro h
      rcases h with h | h
      · exact c0 (Or.inl (h0.1 h))
      · exact c0 (Or.inr (h1.1 h))
    rw [if_neg c0, if_neg c0']
    by_cases c2 : e = ['.', '.']
    · rw [if_pos c2, if_pos (h2.2 c2)]
      cases out with
      | nil => cases rooted <;> simp
      | cons x xs => simp
    · rw [if_neg c2, if_neg (fun h => c2 (h2.1 h))]
      simp

theorem cleanFold_substTokens (val : Char → Option (List Char))
    (hv : ∀ k w, val k = some w → w ≠ [] ∧ '/' ∉ w ∧ '.' ∉ w) (rooted : Bool)
    (es : List (List Char)) (st : List (List Char) × Nat) :
    (es.map (substTokens val)).foldl (cleanStep rooted) (st.1.map (substTokens val), st.2) =
      (((es.foldl (cleanStep rooted) st).1).map (substTokens val),
        (es.foldl (cleanStep rooted) st).2) := by
  induction es generalizing st with
  | nil => rfl
  | cons e rest ih =>
    simp only [List.map_cons, List.foldl_cons]
    rw [cleanStep_substTokens val hv rooted st.1 st.2 e]
    exact ih (cleanStep rooted (st.1, st.2) e)

theorem substTokens_rooted (val : Char → Option (List Char))
    (hv : ∀ k w, val k = some w → w ≠ [] ∧ '/' ∉ w ∧ '.' ∉ w) (p : List Char) :
    ((substTokens val p).head? == some '/') = (p.head? == some '/') := by
  match p with
  | [] => rfl
  | [x] => rfl
  | x :: y :: r =>
    by_cases hx : x = '%'
    · subst hx
      cases hvy : val y with
      | some w =>
        obtain ⟨hne, hsl, _⟩ := hv y w hvy
        cases w with
        | nil => exact absurd rfl hne
        | cons a as =>
          have ha : a ≠ '/' := fun h => hsl (h ▸ List.mem_cons_self _ _)
          simp [substTokens, hvy, ha]
      | none => simp [substTokens, hvy]
    · simp [substTokens, hx]

/-- Substituting tokens after `filepath.Clean` or before it gives the same path, when no
value is empty or holds a separator or a dot. -/
theorem Clean_substTokens (val : Char → Option (List Char)) (hsep : val '/' = none)
    (hv : ∀ k w, val k = some w → w ≠ [] ∧ '/' ∉ w ∧ '.' ∉ w) (p : List Char) :
    Clean (substTokens val p) = substTokens val (Clean p) := by
  by_cases hp : p = []
  · subst hp
    rfl
  · have hp2 : substTokens val p ≠ [] := fun h => hp ((substTokens_eq_nil val hv p).1 h)
    have hfold := cleanFold_substTokens val hv (p.head? == some '/') (splitPath p) ([], 0)
    simp only [List.map_nil] at hfold
    have hsl : ∀ q : List Char, substTokens val ('/' :: q) = '/' :: substTokens val q :=
      fun q => substTokens_append_sep val '/' hsep (by decide) [] q
    obtain ⟨st, hst⟩ : ∃ st, st = (splitPath p).foldl (cleanStep (p.head? == some '/')) ([], 0) :=
      ⟨_, rfl⟩
    rw [← hst] at hfold
    obtain ⟨elems, helems⟩ : ∃ elems, elems = List.replicate st.2 ['.', '.'] ++ st.1.reverse :=
      ⟨_, rfl⟩
    have hmap : List.replicate st.2 ['.', '.'] ++ (st.1.map (substTokens val)).reverse =
        elems.map (substTokens val) := by
      rw [helems, List.map_append, List.map_replicate, List.map_reverse]
      rfl
    have hL : Clean (substTokens val p) =
        if (p.head? == some '/') = true then '/' :: joinPath (elems.map (substTokens val))
        else if elems.map (substTokens val) = [] then ['.']
        else joinPath (elems.map (substTokens val)) := by
      unfold Clean
      simp only [if_neg hp2, substTokens_rooted val hv p, splitPath_substTokens val hsep hv p,
        hfold, hmap]
    have hR : Clean p =
        if (p.head? == some '/') = true then '/' :: joinPath elems
        else if elems = [] then ['.']
        else joinPath elems := by
      unfold Clean
      simp only [if_neg hp, ← hst, ← helems]
    rw [hL, hR, ← substTokens_joinPath val hsep]
    by_cases hr : (p.head? == some '/') = true
    · rw [if_pos hr, if_pos hr, hsl]
    · rw [if_neg hr, if_neg hr]
      by_cases he : elems = []
      · rw [if_pos he, if_pos (by rw [he]; rfl)]
        rfl
      · rw [if_neg he, if_neg (by simpa using he)]

/-- Substituting tokens after `filepath.Join` or in the two parts before it gives the same
path. -/
theorem Join_substTokens (val : Char → Option (List Char)) (hsep : val '/' = none)
    (hv : ∀ k w, val k = some w → w ≠ [] ∧ '/' ∉ w ∧ '.' ∉ w) (a b : List Char) :
    substTokens val (Join a b) = Join (substTokens val a) (substTokens val b) := by
  have ha := substTokens_eq_nil val hv a
  have hb := substTokens_eq_nil val hv b
  unfold Join
  by_cases h1 : a = []
  · subst h1
    by_cases h2 : b = []
    · subst h2
      rfl
    · have h2' : substTokens val b ≠ [] := fun h => h2 (hb.1 h)
      simp only [ne_eq, not_true_eq_false, if_false, h2, not_false_eq_true, if_true, h2',
        substTokens]
      exact (Clean_substTokens val hsep hv b).symm
  · have h1' : substTokens val a ≠ [] := fun h => h1 (ha.1 h)
    simp only [ne_eq, h1, not_false_eq_true, if_true, h1']
    rw [← substTokens_append_sep val '/' hsep (by decide)]
    exact (Clean_substTokens val hsep hv _).symm

/-! ## History names -/

theorem formatZone_chars (offset : Int) :
    formatZone offset ≠ [] ∧
      ∀ c ∈ formatZone offset, isDigit c = true ∨ c = '-' ∨ c = '+' ∨ c = 'Z' := by
  unfold formatZone
  split
  · simp
  · simp only []
    split
    · refine ⟨by simp, ?_⟩
      intro c hc
      rcases List.mem_cons.1 hc with h | h
      · exact Or.inr (Or.inl h)
      · rcases List.mem_append.1 h with h1 | h1
        · rcases appendInt_chars _ _ c h1 with h2 | h2
          · exact Or.inl h2
          · exact Or.inr (Or.inl h2)
        · rcases appendInt_chars _ _ c h1 with h2 | h2
          · exact Or.inl h2
          · exact Or.inr (Or.inl h2)
    · refine ⟨by simp, ?_⟩
      intro c hc
      rcases List.mem_cons.1 hc with h | h
      · exact Or.inr (Or.inr (Or.inl h))
      · rcases List.mem_append.1 h with h1 | h1
        · rcases appendInt_chars _ _ c h1 with h2 | h2
          · exact Or.inl h2
          · exact Or.inr (Or.inl h2)
        · rcases appendInt_chars _ _ c h1 with h2 | h2
          · exact Or.inl h2
          · exact Or.inr (Or.inl h2)

/-- No value of a token is empty or holds a separator or a dot. -/
theorem tokenValue_path_safe (u : Time) :
    ∀ k w, tokenValue u k = some w → w ≠ [] ∧ '/' ∉ w ∧ '.' ∉ w := by
  have num : ∀ (x : Int) (width : Nat),
      appendInt x width ≠ [] ∧ '/' ∉ appendInt x width ∧ '.' ∉ appendInt x width := by
    intro x width
    refine ⟨appendInt_ne_nil x width, ?_, ?_⟩
    · intro h
      rcases appendInt_chars x width _ h with h1 | h1
      · revert h1
        decide
      · revert h1
        decide
    · intro h
      rcases appendInt_chars x width _ h with h1 | h1
      · revert h1
        decide
      · revert h1
        decide
  intro k w hw
  unfold tokenValue at hw
  split at hw
  · simp only [Option.some.injEq] at hw
    subst hw
    obtain ⟨h1, h2⟩ := formatZone_chars u.offset
    refine ⟨h1, ?_, ?_⟩
    · intro h
      rcases h2 _ h with h3 | h3 | h3 | h3 <;> revert h3 <;> decide
    · intro h
      rcases h2 _ h with h3 | h3 | h3 | h3 <;> revert h3 <;> decide
  repeat
    split at hw
    · simp only [Option.some.injEq] at hw
      subst hw
      exact num _ _
  exact Option.noConfusion hw

theorem UTC_offset (t : Time) : t.UTC.offset = 0 := rfl

/-- A time value with a zero offset has the fields of its UTC reading. -/
theorem tokenValue_zero_offset (t : Time) (h : t.offset = 0) :
    tokenValue t = tokenValue t.UTC := by
  have hl : t.UTC.localSec = t.localSec := by
    have e : t.UTC.localSec = t.sec + t.UTC.offset := rfl
    rw [e, UTC_offset]
    simp [Time.localSec, h]
  funext c
  simp only [tokenValue, Time.Year, Time.Month, Time.Day, Time.Hour, Time.Minute, Time.Second,
    Time.dayNumber, hl, h, UTC_offset]

theorem TFormat_zero_offset (t : Time) (h : t.offset = 0) (fmt : List Char) :
    TFormat t fmt = substTokens (tokenValue t.UTC) fmt := by
  rw [TFormat_eq_substTokens]
  split
  · rw [tokenValue_zero_offset t h]
  · rfl

theorem Contains_tail (x : Char) (l sub : List Char) (h : Contains (x :: l) sub = false) :
    Contains l sub = false := by
  cases l with
  | nil =>
    simp only [Contains, Bool.or_eq_false_iff] at h
    simp only [Contains]
    exact h.2
  | cons y r =>
    simp only [Contains, Bool.or_eq_false_iff] at h
    simpa only [Contains, Bool.or_eq_false_iff] using h.2

theorem hasToken_tail (x : Char) (l : List Char) (h : hasToken (x :: l) = false) :
    hasToken l = false := by
  simp only [hasToken, Bool.or_eq_false_iff] at h ⊢
  obtain ⟨⟨⟨⟨⟨⟨h1, h2⟩, h3⟩, h4⟩, h5⟩, h6⟩, h7⟩ := h
  exact ⟨⟨⟨⟨⟨⟨Contains_tail _ _ _ h1, Contains_tail _ _ _ h2⟩, Contains_tail _ _ _ h3⟩,
    Contains_tail _ _ _ h4⟩, Contains_tail _ _ _ h5⟩, Contains_tail _ _ _ h6⟩,
    Contains_tail _ _ _ h7⟩

theorem hasToken_of_value (u : Time) (y : Char) (w r : List Char)
    (h : tokenValue u y = some w) : hasToken ('%' :: y :: r) = true := by
  unfold tokenValue at h
  split at h
  · rename_i hy
    simp [hy, hasToken, Contains, List.isPrefixOf]
  repeat
    split at h
    · rename_i hy
      simp [hy, hasToken, Contains, List.isPrefixOf]
  exact Option.noConfusion h

/-- A string without tokens is left as it is. -/
theorem substTokens_no_token (u : Time) (s : List Char) (hs : hasToken s = false) :
    substTokens (tokenValue u) s = s := by
  suffices H : ∀ n (s : List Char), s.length ≤ n → hasToken s = false →
      substTokens (tokenValue u) s = s from H s.length s (Nat.le_refl _) hs
  intro n
  induction n with
  | zero =>
    intro s hl _
    have : s = [] := List.length_eq_zero.1 (Nat.le_zero.1 hl)
    subst this
    rfl
  | succ n ih =>
    intro s hl hs
    match s, hl with
    | [], _ => rfl
    | [x], _ => rfl
    | x :: y :: r, hl =>
      have hlen1 : (y :: r).length ≤ n := by
        simp only [List.length_cons] at hl ⊢
        omega
      have i1 := ih (y :: r) hlen1 (hasToken_tail x _ hs)
      by_cases hx : x = '%'
      · subst hx
        cases hvy : tokenValue u y with
        | some w =>
          rw [hasToken_of_value u y w r hvy] at hs
          exact Bool.noConfusion hs
        | none => simp [substTokens, hvy, i1]
      · simp [substTokens, hx, i1]

/-- The file-name template of `New`, substituted: the stem, `_`, the UTC timestamp, the
extension. -/
theorem substTokens_fileTemplate (t : Time) (stem ext : List Char)
    (hstem : hasToken stem = false) (hext : hasToken ext = false) :
    substTokens (tokenValue t.UTC) (stem ++ '_' :: T_FORMAT ++ ext) =
      stem ++ '_' :: utcStamp t ++ ext := by
  have e : stem ++ '_' :: T_FORMAT ++ ext = stem ++ '_' :: (T_FORMAT ++ ext) := by simp
  rw [e, substTokens_append_sep _ '_' (by simp [tokenValue]) (by decide),
    substTokens_no_token _ stem hstem]
  have hT : substTokens (tokenValue t.UTC) (T_FORMAT ++ ext) =
      utcStamp t ++ substTokens (tokenValue t.UTC) ext := by
    simp [T_FORMAT, substTokens, tokenValue, utcStamp, UTC_offset, formatZone]
  rw [hT, substTokens_no_token _ ext hext]
  simp

theorem takeWhile_ne_append_prefix (c : Char) (l : List Char) (h : c ∈ l) :
    l.takeWhile (fun x => x != c) ++ [c] <+: l := by
  induction l with
  | nil => simp at h
  | cons x xs ih =>
    by_cases hx : x = c
    · subst hx
      simp [List.takeWhile]
    · have hin : c ∈ xs := by
        rcases List.mem_cons.1 h with h1 | h1
        · exact absurd h1.symm hx
        · exact h1
      have e : (x :: xs).takeWhile (fun y => y != c) = x :: xs.takeWhile (fun y => y != c) := by
        simp [List.takeWhile_cons, hx]
      rw [e, List.cons_append]
      exact (List.prefix_cons_inj x).2 (ih hin)

/-- The extension that `filepath.Ext` returns ends the name. -/
theorem Ext_suffix (name : List Char) : Ext name <:+ name := by
  unfold Ext
  simp only []
  split
  · rename_i h
    have hmem : '.' ∈ name.reverse.takeWhile (fun c => c != '/') := by
      simpa using h
    have h1 := takeWhile_ne_append_prefix '.' _ hmem
    have h2 : (name.reverse.takeWhile (fun c => c != '/')) <+: name.reverse :=
      List.takeWhile_prefix _
    have h3 := List.reverse_suffix.2 (h1.trans h2)
    simpa using h3
  · exact List.nil_suffix

theorem TrimSuffix_append (pre ext : List Char) :
    TrimSuffix (pre ++ ext) ext ++ ext = pre ++ ext := by
  have hs : HasSuffix (pre ++ ext) ext = true := by
    unfold HasSuffix
    exact List.isSuffixOf_iff_suffix.2 ⟨pre, rfl⟩
  unfold TrimSuffix
  rw [if_pos hs]
  have hlen : (pre ++ ext).length - ext.length = pre.length := by
    rw [List.length_append]
    omega
  rw [hlen, List.take_left']
  rfl

/-- The stem and the extension that `New` computes make up the base name. -/
theorem TrimSuffix_Ext (name : List Char) : TrimSuffix name (Ext name) ++ Ext name = name := by
  obtain ⟨pre, hpre⟩ := Ext_suffix name
  have h := TrimSuffix_append pre (Ext name)
  rw [hpre] at h
  exact h

theorem length_two_digits (l : List Char) (h : l.length = 2 ∧ ∀ c ∈ l, isDigit c = true) :
    ∃ a b, l = [a, b] ∧ isDigit a = true ∧ isDigit b = true := by
  match l, h with
  | [a, b], h => exact ⟨a, b, rfl, h.2 a (by simp), h.2 b (by simp)⟩

theorem length_four_digits (l : List Char) (h : l.length = 4 ∧ ∀ c ∈ l, isDigit c = true) :
    ∃ a b c d, l = [a, b, c, d] ∧ isDigit a = true ∧ isDigit b = true ∧ isDigit c = true ∧
      isDigit d = true := by
  match l, h with
  | [a, b, c, d], h =>
    exact ⟨a, b, c, d, rfl, h.2 a (by simp), h.2 b (by simp), h.2 c (by simp), h.2 d (by simp)⟩

theorem two_digits_of_bounds (x : Int) (h : 0 ≤ x ∧ x < 100) :
    ∃ a b, appendInt x 2 = [a, b] ∧ isDigit a = true ∧ isDigit b = true :=
  length_two_digits _ (appendInt_fixed x 2 (by decide) h.1 (by norm_num; omega))

/-- For a year from 0 to 9999 the UTC timestamp is eight digits, `T`, six digits, `Z`. -/
theorem utcStamp_matches (t : Time) (h0 : 0 ≤ t.UTC.Year) (h1 : t.UTC.Year ≤ 9999) :
    fmtReMatch (utcStamp t) = true := by
  obtain ⟨y1, y2, y3, y4, hy, dy1, dy2, dy3, dy4⟩ :=
    length_four_digits _ (appendInt_fixed t.UTC.Year 4 (by decide) h0 (by norm_num; omega))
  obtain ⟨m1, m2, hm, dm1, dm2⟩ := two_digits_of_bounds _ (Month_bounds t.UTC)
  obtain ⟨d1, d2, hd, dd1, dd2⟩ := two_digits_of_bounds _ (Day_bounds t.UTC)
  obtain ⟨a1, a2, ha, da1, da2⟩ := two_digits_of_bounds _ (Hour_bounds t.UTC)
  obtain ⟨b1, b2, hb, db1, db2⟩ := two_digits_of_bounds _ (Minute_bounds t.UTC)
  obtain ⟨c1, c2, hc, dc1, dc2⟩ := two_digits_of_bounds _ (Second_bounds t.UTC)
  unfold utcStamp
  rw [hy, hm, hd, ha, hb, hc]
  simp [fmtReMatch, dy1, dy2, dy3, dy4, dm1, dm2, dd1, dd2, da1, da2, db1, db2, dc1, dc2]

/-- C4, as stated, fails. For a time value given in a zone seven hours east of UTC the name
carries the wall-clock fields of that zone and the marker `+0700`, not the UTC timestamp
with `Z`; and a base name that holds a token (`a%Y.log`) has the token substituted. -/
theorem NewNameT_counterexample :
    (NewNameT (New "app.log".toList historyOptions) afternoonEast).1 =
        "2024/01/app_20240115T213045+0700.log".toList ∧
      Join (TFormat afternoonEast "%Y/%M".toList)
          ("app".toList ++ '_' :: utcStamp afternoonEast ++ ".log".toList) =
        "2024/01/app_20240115T143045Z.log".toList ∧
      (NewNameT (New "app.log".toList historyOptions) afternoonEast).1 ≠
        Join (TFormat afternoonEast "%Y/%M".toList)
          ("app".toList ++ '_' :: utcStamp afternoonEast ++ ".log".toList) ∧
      (NewNameT (New "a%Y.log".toList historyOptions) afternoonUTC).1 =
        "2024/01/a2024_20240115T143045Z.log".toList := by
  decide

/-- C4, amended: for a Rotator built by `New` on a path whose base name is the stem
followed by the extension, neither holding a token, with history-path template `h`, and
for every time value `t` whose zone offset is zero (a UTC time, as `Rotate` and `NewName`
pass), `NewNameT(t)` returns the relative name `h` formatted at `t` joined with
`<stem>_<timestamp><ext>`, where the timestamp is `%Y%M%DT%h%m%s` on the UTC fields of `t`
followed by `Z` (eight digits, `T`, six digits, `Z` for the years 0 to 9999), and the
path is that name joined under the history directory. -/
theorem NewNameT_history_name (path : List Char) (opt : Options) (t : Time)
    (hutc : t.offset = 0)
    (hstem : hasToken (TrimSuffix (Base path) (Ext (Base path))) = false)
    (hext : hasToken (Ext (Base path)) = false) :
    TrimSuffix (Base path) (Ext (Base path)) ++ Ext (Base path) = Base path ∧
      (NewNameT (New path opt) t).1 =
        Join (TFormat t opt.HistoryPath)
          (TrimSuffix (Base path) (Ext (Base path)) ++ '_' :: utcStamp t ++ Ext (Base path)) ∧
      (NewNameT (New path opt) t).2 =
        Join (if opt.HistoryDir = [] then path ++ ".glogrotation".toList else opt.HistoryDir)
          (NewNameT (New path opt) t).1 ∧
      (0 ≤ t.UTC.Year → t.UTC.Year ≤ 9999 → fmtReMatch (utcStamp t) = true) := by
  refine ⟨TrimSuffix_Ext (Base path), ?_, rfl, utcStamp_matches t⟩
  have e : (NewNameT (New path opt) t).1 =
      TFormat t (Join opt.HistoryPath
        (TrimSuffix (Base path) (Ext (Base path)) ++ '_' :: T_FORMAT ++ Ext (Base path))) := rfl
  rw [e, TFormat_zero_offset t hutc, TFormat_zero_offset t hutc,
    Join_substTokens _ (by simp [tokenValue]) (tokenValue_path_safe t.UTC),
    substTokens_fileTemplate t _ _ hstem hext]

/-- C4, witness: base file `app.log`, `t` = 2024-01-15 14:30:45 UTC and the template
`%Y/%M` give `2024/01/app_20240115T143045Z.log` under the history directory. -/
theorem NewNameT_history_name_witness :
    (afternoonUTC.offset = 0 ∧
        hasToken (TrimSuffix (Base "app.log".toList) (Ext (Base "app.log".toList))) = false ∧
        hasToken (Ext (Base "app.log".toList)) = false) ∧
      NewNameT (New "app.log".toList historyOptions) afternoonUTC =
        ("2024/01/app_20240115T143045Z.log".toList,
          "hist/2024/01/app_20240115T143045Z.log".toList) ∧
      (NewNameT (New "app.log".toList historyOptions) afternoonUTC).1 =
        Join (TFormat afternoonUTC historyOptions.HistoryPath)
          (TrimSuffix (Base "app.log".toList) (Ext (Base "app.log".toList)) ++
            '_' :: utcStamp afternoonUTC ++ Ext (Base "app.log".toList)) :=
  ⟨by decide, by decide,
    (NewNameT_history_name "app.log".toList historyOptions afternoonUTC (by decide) (by decide)
      (by decide)).2.1⟩

/-! ## The control record -/

theorem getUint64_putUint64 (u : Nat) (h : u < 2 ^ 64) : getUint64 (putUint64 u) = u := by
  simp only [getUint64, putUint64, List.foldl_cons, List.foldl_nil]
  omega

theorem toInt64_toUint64 (v : Int) (hlo : -2 ^ 63 ≤ v) (hhi : v < 2 ^ 63) :
    toInt64 (toUint64 v) = v := by
  unfold toInt64 toUint64
  split <;> omega

theorem toUint64_lt (v : Int) : toUint64 v < 2 ^ 64 := by
  unfold toUint64
  omega

theorem putUint64_bytes (u : Nat) : ∀ b ∈ putUint64 u, b < 256 := by
  intro b hb
  simp only [putUint64, List.mem_cons, List.mem_singleton, List.not_mem_nil, or_false] at hb
  omega

/-- C7: for every timestamp `t` (its Unix seconds an `int64`), `saveControl` writes a record
of exactly 8 bytes that holds the Unix seconds of `t` as a big-endian signed 64-bit integer,
and `loadControlOrCreate` reading that record yields `t` truncated to whole seconds (same
Unix second, no nanoseconds), displayed in the local zone. -/
theorem control_record_round_trip (t now : Time) (localLoc : Location) (canCreate : Bool)
    (hlo : -2 ^ 63 ≤ t.Unix) (hhi : t.Unix < 2 ^ 63) :
    ∃ bytes, saveControl true ⟨t⟩ = .ok bytes ∧ bytes.length = 8 ∧ (∀ b ∈ bytes, b < 256) ∧
      bytes = putUint64 (toUint64 t.Unix) ∧ toInt64 (getUint64 bytes) = t.Unix ∧
      loadControlOrCreate (.content bytes) now localLoc canCreate =
        .ok (⟨⟨t.sec, 0, localLoc⟩⟩, .content bytes) := by
  have hv : toInt64 (getUint64 (putUint64 (toUint64 t.Unix))) = t.Unix := by
    rw [getUint64_putUint64 _ (toUint64_lt _), toInt64_toUint64 _ hlo hhi]
  refine ⟨putUint64 (toUint64 t.Unix), rfl, rfl, putUint64_bytes _, rfl, hv, ?_⟩
  have htake : (putUint64 (toUint64 t.Unix)).take 8 = putUint64 (toUint64 t.Unix) := rfl
  have hlen : ¬ (putUint64 (toUint64 t.Unix)).length < 8 := by
    simp [putUint64]
  unfold loadControlOrCreate
  simp only [if_neg hlen, htake, hv]
  rfl

/-- C7, witness: the record of 2024-01-15 14:30:45.123456789 (Unix second 1705329045) is
`00 00 00 00 65 a5 41 95`, and reading it back gives that second without the nanoseconds. -/
theorem control_record_round_trip_witness :
    (-2 ^ 63 ≤ afternoonNanos.Unix ∧ afternoonNanos.Unix < 2 ^ 63) ∧
      saveControl true ⟨afternoonNanos⟩ = .ok [0, 0, 0, 0, 101, 165, 65, 149] ∧
      ∃ bytes, saveControl true ⟨afternoonNanos⟩ = .ok bytes ∧ bytes.length = 8 ∧
        (∀ b ∈ bytes, b < 256) ∧ bytes = putUint64 (toUint64 afternoonNanos.Unix) ∧
        toInt64 (getUint64 bytes) = afternoonNanos.Unix ∧
        loadControlOrCreate (.content bytes) zeroTime utcLoc true =
          .ok (⟨⟨1705329045, 0, utcLoc⟩⟩, .content bytes) :=
  ⟨by decide, by rfl,
    control_record_round_trip afternoonNanos zeroTime utcLoc true (by decide) (by decide)⟩

/-! ## The history catalog -/

theorem insertBy_perm {α : Type} (less : α → α → Bool) (x : α) (l : List α) :
    (insertBy less x l).Perm (x :: l) := by
  induction l with
  | nil => exact List.Perm.refl _
  | cons y ys ih =>
    unfold insertBy
    split
    · exact List.Perm.refl _
    · exact (List.Perm.cons y ih).trans (List.Perm.swap x y ys)

theorem sortSlice_perm {α : Type} (less : α → α → Bool) (l : List α) :
    (sortSlice less l).Perm l := by
  induction l with
  | nil => exact List.Perm.refl _
  | cons x xs ih => exact (insertBy_perm less x _).trans (List.Perm.cons x ih)

theorem insertBy_sorted {α : Type} (less : α → α → Bool)
    (hasym : ∀ a b, less a b = true → less b a = false)
    (htrans : ∀ a b c, less a b = true → less b c = true → less a c = true) (x : α)
    (l : List α) (hl : l.Pairwise (fun a b => less b a = false)) :
    (insertBy less x l).Pairwise (fun a b => less b a = false) := by
  induction l with
  | nil => simp [insertBy]
  | cons y ys ih =>
    rw [List.pairwise_cons] at hl
    unfold insertBy
    split
    · rename_i hxy
      rw [List.pairwise_cons]
      refine ⟨?_, List.pairwise_cons.2 hl⟩
      intro z hz
      rcases List.mem_cons.1 hz with h | h
      · rw [h]
        exact hasym x y hxy
      · cases hzx : less z x with
        | false => rfl
        | true =>
          have := htrans z x y hzx hxy
          rw [hl.1 z h] at this
          exact Bool.noConfusion this
    · rename_i hxy
      rw [List.pairwise_cons]
      refine ⟨?_, ih hl.2⟩
      intro z hz
      rcases List.mem_cons.1 ((insertBy_perm less x ys).subset hz) with h | h
      · rw [h]
        simpa using hxy
      · exact hl.1 z h

theorem sortSlice_sorted {α : Type} (less : α → α → Bool)
    (hasym : ∀ a b, less a b = true → less b a = false)
    (htrans : ∀ a b c, less a b = true → less b c = true → less a c = true) (l : List α) :
    (sortSlice less l).Pairwise (fun a b => less b a = false) := by
  induction l with
  | nil => exact List.Pairwise.nil
  | cons x xs ih => exact insertBy_sorted less hasym htrans x _ ih

theorem After_asymm (t u : Time) (h : t.After u = true) : u.After t = false := by
  simp only [Time.After, Bool.or_eq_true, Bool.and_eq_true, decide_eq_true_eq] at h
  simp only [Time.After, Bool.or_eq_false_iff, Bool.and_eq_false_iff, decide_eq_false_iff_not]
  omega

theorem After_trans (t u v : Time) (h1 : t.After u = true) (h2 : u.After v = true) :
    t.After v = true := by
  simp only [Time.After, Bool.or_eq_true, Bool.and_eq_true, decide_eq_true_eq] at h1 h2 ⊢
  omega

theorem Before_eq_After (t u : Time) : t.Before u = u.After t := by
  simp only [Time.Before, Time.After, eq_comm, gt_iff_lt]

theorem Equal_or_After (t u : Time) : (t.Equal u || t.After u) = !t.Before u := by
  cases h : t.Before u
  · simp only [Time.Before, Bool.or_eq_false_iff, Bool.and_eq_false_iff,
      decide_eq_false_iff_not] at h
    simp only [Time.Equal, Time.After, Bool.not_false, Bool.or_eq_true, Bool.and_eq_true,
      decide_eq_true_eq]
    omega
  · simp only [Time.Before, Bool.or_eq_true, Bool.and_eq_true, decide_eq_true_eq] at h
    simp only [Time.Equal, Time.After, Bool.not_true, Bool.or_eq_false_iff, Bool.and_eq_false_iff,
      decide_eq_false_iff_not]
    omega

theorem Equal_or_Before (t u : Time) : (t.Equal u || t.Before u) = !t.After u := by
  cases h : t.After u
  · simp only [Time.After, Bool.or_eq_false_iff, Bool.and_eq_false_iff,
      decide_eq_false_iff_not] at h
    simp only [Time.Equal, Time.Before, Bool.not_false, Bool.or_eq_true, Bool.and_eq_true,
      decide_eq_true_eq]
    omega
  · simp only [Time.After, Bool.or_eq_true, Bool.and_eq_true, decide_eq_true_eq] at h
    simp only [Time.Equal, Time.Before, Bool.not_true, Bool.or_eq_false_iff,
      Bool.and_eq_false_iff, decide_eq_false_iff_not]
    omega

/-- The two filters of `History` keep the entries in the range of the spec. -/
theorem filters_eq_inRange (tFrom tTo : Time) (events : List FileHistroyEntry) :
    (if !tTo.IsZero then
        (if !tFrom.IsZero then events.filter (keepFrom tFrom) else events).filter (keepTo tTo)
      else (if !tFrom.IsZero then events.filter (keepFrom tFrom) else events)) =
      events.filter (inRange tFrom tTo) := by
  have hf : ∀ e, keepFrom tFrom e = !e.At.Before tFrom := fun e => Equal_or_After _ _
  have ht : ∀ e, keepTo tTo e = !e.At.After tTo := fun e => Equal_or_Before _ _
  have hk1 : keepFrom tFrom = fun e => !e.At.Before tFrom := funext hf
  have hk2 : keepTo tTo = fun e => !e.At.After tTo := funext ht
  cases h1 : tFrom.IsZero <;> cases h2 : tTo.IsZero
  · have hin : inRange tFrom tTo = fun e => !e.At.After tTo && !e.At.Before tFrom := by
      funext e
      simp [inRange, h1, h2, Bool.and_comm]
    simp [List.filter_filter, hin, hk1, hk2]
  · have hin : inRange tFrom tTo = fun e => !e.At.Before tFrom := by
      funext e
      simp [inRange, h1, h2]
    simp [hin, hk1]
  · have hin : inRange tFrom tTo = fun e => !e.At.After tTo := by
      funext e
      simp [inRange, h1, h2]
    simp [hin, hk2]
  · have hin : inRange tFrom tTo = fun _ => true := by
      funext e
      simp [inRange, h1, h2]
    simp [hin]

theorem filterSort_eq (tFrom tTo : Time) (events : List FileHistroyEntry) :
    filterSort tFrom tTo events =
      sortSlice (fun a b => a.At.After b.At) (events.filter (inRange tFrom tTo)) := by
  unfold filterSort
  simp only []
  rw [filters_eq_inRange]

theorem History_eq (r : Rotator) (localLoc : Location) (items : List WalkItem)
    (tFrom tTo : Time) (collected : List FileHistroyEntry)
    (h : collectEntries r localLoc items = .ok collected) :
    History r localLoc items tFrom tTo =
      .ok (sortSlice (fun a b => a.At.After b.At) (collected.filter (inRange tFrom tTo))) := by
  unfold History
  rw [h]
  simp only [filterSort_eq]

/-- The list that `History` returns for a completed scan: sorted by `After` and a
permutation of the filtered entries. -/
theorem History_result (r : Rotator) (localLoc : Location) (items : List WalkItem)
    (tFrom tTo : Time) (collected : List FileHistroyEntry)
    (hscan : collectEntries r localLoc items = .ok collected) :
    ∃ events, History r localLoc items tFrom tTo = .ok events ∧
      events.Pairwise (fun a b => b.At.After a.At = false) ∧
      events.Perm (collected.filter (inRange tFrom tTo)) :=
  ⟨_, History_eq r localLoc items tFrom tTo collected hscan,
    sortSlice_sorted (fun a b : FileHistroyEntry => a.At.After b.At)
      (fun a b => After_asymm a.At b.At) (fun a b c => After_trans a.At b.At c.At)
      (collected.filter (inRange tFrom tTo)),
    sortSlice_perm _ _⟩

/-- C8: whenever the scan of the history tree completes, `History(from, to)` returns a list
that is sorted descending by timestamp (no entry is older than a later one in the list)
and is a permutation of the collected entries that pass the filters. -/
theorem History_sorted_descending (r : Rotator) (localLoc : Location) (items : List WalkItem)
    (tFrom tTo : Time) (collected : List FileHistroyEntry)
    (hscan : collectEntries r localLoc items = .ok collected) :
    ∃ events, History r localLoc items tFrom tTo = .ok events ∧
      events.Pairwise (fun a b => a.At.Before b.At = false) ∧
      events.Perm (collected.filter (inRange tFrom tTo)) := by
  obtain ⟨events, h1, h2, h3⟩ := History_result r localLoc items tFrom tTo collected hscan
  exact ⟨events, h1, h2.imp (fun {a b} hab => by rw [Before_eq_After]; exact hab), h3⟩

/-- C8, witness: the files `app_20240110T090000Z.log.gz` and `app_20240115T143045Z.log.gz`,
walked in lexical order, are returned most recent first. -/
theorem History_sorted_descending_witness :
    collectEntries appRotator utcLoc twoFiles = .ok [entryJan10, entryJan15] ∧
      History appRotator utcLoc twoFiles zeroTime zeroTime = .ok [entryJan15, entryJan10] ∧
      ∃ events, History appRotator utcLoc twoFiles zeroTime zeroTime = .ok events ∧
        events.Pairwise (fun a b => a.At.Before b.At = false) ∧
        events.Perm ([entryJan10, entryJan15].filter (inRange zeroTime zeroTime)) :=
  ⟨by rfl, by rfl,
    History_sorted_descending appRotator utcLoc twoFiles zeroTime zeroTime
      [entryJan10, entryJan15] (by rfl)⟩

/-- C9: for the listing that `History` returns and a retention count `n > 0`, the entries
selected for deletion are the listing without its first `n` entries (none when the listing
has at most `n` entries): the listing is the `n` most recent entries followed by the
selected ones, `min(n, length)` entries are retained, and no selected entry is more recent
than a retained one. With `n <= 0` nothing is selected. -/
theorem pruneTargets_oldest (r : Rotator) (localLoc : Location) (items : List WalkItem)
    (n : Int) (collected : List FileHistroyEntry)
    (hscan : collectEntries r localLoc items = .ok collected) :
    ∃ history, History r localLoc items zeroTime zeroTime = .ok history ∧
      (0 < n →
        pruneTargets n history = history.drop n.toNat ∧
          history = history.take n.toNat ++ pruneTargets n history ∧
          (history.take n.toNat).length = min n.toNat history.length ∧
          (history.length ≤ n.toNat → pruneTargets n history = []) ∧
          ∀ d ∈ pruneTargets n history, ∀ k ∈ history.take n.toNat, d.At.After k.At = false) ∧
      (n ≤ 0 → pruneTargets n history = []) := by
  obtain ⟨history, hh, hsorted, _⟩ :=
    History_result r localLoc items zeroTime zeroTime collected hscan
  refine ⟨history, hh, ?_, ?_⟩
  · intro hn
    have hd : pruneTargets n history = history.drop n.toNat := by
      unfold pruneTargets
      rw [if_pos hn]
      split
      · rfl
      · rename_i hlen
        exact (List.drop_eq_nil_of_le (by omega)).symm
    refine ⟨hd, ?_, List.length_take _ _, ?_, ?_⟩
    · rw [hd, List.take_append_drop]
    · intro hlen
      rw [hd]
      exact List.drop_eq_nil_of_le hlen
    · intro d hdm k hk
      rw [hd] at hdm
      have hp : (history.take n.toNat ++ history.drop n.toNat).Pairwise
          (fun a b => b.At.After a.At = false) := by
        rw [List.take_append_drop]
        exact hsorted
      exact (List.pairwise_append.1 hp).2.2 k hk d hdm
  · intro hn
    unfold pruneTargets
    rw [if_neg (by omega)]

/-- C9, witness: with a retention count of 1 over three entries, exactly the two oldest are
selected. -/
theorem pruneTargets_oldest_witness :
    collectEntries appRotator utcLoc threeFiles = .ok [entryDec31, entryJan10, entryJan15] ∧
      (0 : Int) < 1 ∧
      History appRotator utcLoc threeFiles zeroTime zeroTime =
        .ok [entryJan15, entryJan10, entryDec31] ∧
      pruneTargets 1 [entryJan15, entryJan10, entryDec31] = [entryJan10, entryDec31] ∧
      ∃ history, History appRotator utcLoc threeFiles zeroTime zeroTime = .ok history ∧
        pruneTargets 1 history = history.drop 1 :=
  ⟨by rfl, by decide, by rfl, by decide,
    (pruneTargets_oldest appRotator utcLoc threeFiles 1 [entryDec31, entryJan10, entryJan15]
      (by rfl)).imp (fun _ h => ⟨h.1, (h.2.1 (by decide)).1⟩)⟩

/-- C10: whenever the scan of the history tree completes, `History(from, to)` keeps exactly
the collected entries `e` with (`from` is the zero time or `e.at` is not before `from`) and
(`to` is the zero time or `e.at` is not after `to`), each as often as it was collected;
with both bounds zero no entry is dropped. -/
theorem History_range_filter (r : Rotator) (localLoc : Location) (items : List WalkItem)
    (tFrom tTo : Time) (collected : List FileHistroyEntry)
    (hscan : collectEntries r localLoc items = .ok collected) :
    ∃ events, History r localLoc items tFrom tTo = .ok events ∧
      (∀ e, e ∈ events ↔
        e ∈ collected ∧ (tFrom.IsZero = true ∨ e.At.Before tFrom = false) ∧
          (tTo.IsZero = true ∨ e.At.After tTo = false)) ∧
      (∀ e, e ∈ events → events.count e = collected.count e) ∧
      (tFrom.IsZero = true → tTo.IsZero = true → events.Perm collected) := by
  refine ⟨_, History_eq r localLoc items tFrom tTo collected hscan, ?_, ?_, ?_⟩
  · intro e
    rw [(sortSlice_perm _ _).mem_iff, List.mem_filter]
    simp [inRange]
  · intro e he
    rw [(sortSlice_perm _ _).mem_iff, List.mem_filter] at he
    rw [(sortSlice_perm _ _).count_eq, List.count_filter he.2]
  · intro h1 h2
    have hall : collected.filter (inRange tFrom tTo) = collected := by
      rw [List.filter_eq_self]
      intro e _
      simp [inRange, h1, h2]
    have hp := sortSlice_perm (fun a b : FileHistroyEntry => a.At.After b.At)
      (collected.filter (inRange tFrom tTo))
    rw [hall] at hp ⊢
    exact hp

/-- C10, witness: with `from` = `to` = 2024-01-10 09:00:00, of three entries the one at the
bound is kept, the older and the more recent one are dropped. -/
theorem History_range_filter_witness :
    collectEntries appRotator utcLoc threeFiles = .ok [entryDec31, entryJan10, entryJan15] ∧
      History appRotator utcLoc threeFiles entryJan10.At entryJan10.At = .ok [entryJan10] ∧
      ∃ events, History appRotator utcLoc threeFiles entryJan10.At entryJan10.At = .ok events ∧
        ∀ e, e ∈ events ↔
          e ∈ [entryDec31, entryJan10, entryJan15] ∧
            (entryJan10.At.IsZero = true ∨ e.At.Before entryJan10.At = false) ∧
            (entryJan10.At.IsZero = true ∨ e.At.After entryJan10.At = false) :=
  ⟨by rfl, by rfl,
    (History_range_filter appRotator utcLoc threeFiles entryJan10.At entryJan10.At
      [entryDec31, entryJan10, entryJan15] (by rfl)).imp (fun _ h => ⟨h.1, h.2.1⟩)⟩

/-! ## Short names in the history tree -/

/-- C11: for base file `app.log` the scan does not skip the names `app_x.log.gz` and
`app_.gz`: the first makes `info[8]` an index out of range, the second makes the slice
`name[len(prefix) : len(name)-len(ext)-3]` run from 4 to 0, and `History` over a tree that
holds such a file fails with that panic instead of returning the other entries. -/
theorem History_short_name_panics :
    eachInfo appRotator "app_x.log.gz".toList = .error .indexRange ∧
      eachInfo appRotator "app_.gz".toList = .error .sliceBounds ∧
      History appRotator utcLoc (twoFiles ++ [⟨"app_x.log.gz".toList, "app_x.log.gz".toList⟩])
          zeroTime zeroTime = .error .indexRange ∧
      History appRotator utcLoc (twoFiles ++ [⟨"app_.gz".toList, "app_.gz".toList⟩])
          zeroTime zeroTime = .error .sliceBounds := by
  refine ⟨by rfl, by rfl, by rfl, by rfl⟩

/-! ## `Rotate` and its fallback -/

/-- C12, as stated, fails: when the rename succeeds and the fresh re-open of the active
path fails, `Rotate` does not try the append-mode open, although it would succeed, and
ends with `this.f` nil and an error. -/
theorem Rotate_fresh_open_counterexample :
    freshOpenFails.openFresh = false ∧ freshOpenFails.openAppend = true ∧
      Rotate freshOpenFails = { f := .closed, err := true, entry := false, compress := false } ∧
      (Rotate freshOpenFails).f ≠ .appended := by
  decide

/-- C12, amended: for every combination of outcomes of the file-system steps of `Rotate`
in which the history entry cannot be prepared (the directory of the history path cannot be
examined or created, or the rename and the fallback rename both fail), `Rotate` re-opens
the original path in append mode, so that the engine ends the attempt holding an open
active file exactly when that append-mode open succeeds, and returns no entry; and
whenever `Rotate` returns without an error the engine holds an open active file. -/
theorem Rotate_fallback_append (o : RotateSteps) :
    (renameFailed o = true →
        ((Rotate o).f = .appended ↔ o.openAppend = true) ∧
          ((Rotate o).f = .closed ↔ o.openAppend = false) ∧
          ((Rotate o).err = false ↔ o.openAppend = true) ∧ (Rotate o).entry = false) ∧
      (renameFailed o = true ↔
        o.dirIsDot = false ∧
          (o.stat = .failed ∨ (o.stat = .notExist ∧ o.mkdirAll = false) ∨
            (o.rename = false ∧ o.fallbackRename = false))) ∧
      ((Rotate o).err = false → (Rotate o).f ≠ .closed) := by
  obtain ⟨dot, sv, st, mk, rn, fb, fr, ap⟩ := o
  cases dot <;> cases st <;> cases mk <;> cases rn <;> cases fb <;> cases fr <;> cases ap <;>
    simp [Rotate, renameFailed]

/-- C12, witness: when the rename and the fallback rename fail and the append-mode open
succeeds, the engine ends the attempt with the file opened in append mode. -/
theorem Rotate_fallback_append_witness :
    renameFailed renameFails = true ∧ renameFails.openAppend = true ∧
      (Rotate renameFails).f = .appended ∧ (Rotate renameFails).err = false :=
  ⟨by decide, by decide,
    ((Rotate_fallback_append renameFails).1 (by decide)).1.2 (by decide),
    ((Rotate_fallback_append renameFails).1 (by decide)).2.2.1.2 (by decide)⟩

/-! ## Size strings -/

theorem wrapInt64_of_range (x : Int) (h0 : -2 ^ 63 ≤ x) (h1 : x < 2 ^ 63) : wrapInt64 x = x := by
  unfold wrapInt64
  omega

theorem isDigit_not_sign (d : Char) (h : isDigit d = true) : d ≠ '-' ∧ d ≠ '+' := by
  constructor <;> intro e <;> subst e <;> revert h <;> decide

theorem isDigit_bounds (d : Char) (h : isDigit d = true) : 48 ≤ d.toNat ∧ d.toNat ≤ 57 := by
  simpa [isDigit] using h

/-- The value of a decimal string: an optional sign and digits. -/
theorem Atoi_signed (sgn ds : List Char) (hs : sgn = [] ∨ sgn = ['-'] ∨ sgn = ['+'])
    (hne : ds ≠ []) (hdig : ds.all isDigit = true)
    (hlo : -2 ^ 63 ≤ (if sgn = ['-'] then -(ofDigits ds : Int) else (ofDigits ds : Int)))
    (hhi : (if sgn = ['-'] then -(ofDigits ds : Int) else (ofDigits ds : Int)) < 2 ^ 63) :
    Atoi (sgn ++ ds) =
      some (if sgn = ['-'] then -(ofDigits ds : Int) else (ofDigits ds : Int)) := by
  rcases hs with h | h | h
  · subst h
    cases ds with
    | nil => exact absurd rfl hne
    | cons d rest =>
      have hd : isDigit d = true := by
        simp only [List.all_cons, Bool.and_eq_true] at hdig
        exact hdig.1
      obtain ⟨h1, h2⟩ := isDigit_not_sign d hd
      have e0 : ([] : List Char) ≠ ['-'] := by decide
      simp only [e0, if_false] at hlo hhi ⊢
      have hv : ¬ ((ofDigits (d :: rest) : Int) < -2 ^ 63 ∨
          2 ^ 63 ≤ (ofDigits (d :: rest) : Int)) := by omega
      unfold Atoi
      simp only [List.nil_append, List.head?_cons, beq_iff_eq, Option.some.injEq, h1, h2,
        or_self, if_false, hdig, List.cons_ne_nil, Bool.true_eq_false, hv]
  · subst h
    simp only [if_true] at hlo hhi
    unfold Atoi
    simp [hne, hdig]
    constructor <;> omega
  · subst h
    have e : (['+'] : List Char) ≠ ['-'] := by decide
    simp only [e, if_false] at hlo hhi
    unfold Atoi
    simp [hne, hdig]
    constructor <;> omega

theorem upperFirstByte_digit (d : Char) (h : isDigit d = true) : upperFirstByte d = d := by
  obtain ⟨h1, h2⟩ := isDigit_bounds d h
  unfold upperFirstByte
  rw [if_neg (by omega), if_pos (by omega)]

theorem sizeParts_digit (s : List Char) (d : Char) (h : isDigit d = true)
    (hlast : s.getLast? = some d) : sizeParts s d = (0, s) := by
  obtain ⟨h1, h2⟩ := isDigit_bounds d h
  have hK : d ≠ 'K' ∧ d ≠ 'M' ∧ d ≠ 'G' ∧ d ≠ 'T' := by
    refine ⟨?_, ?_, ?_, ?_⟩ <;> intro e <;> subst e <;> revert h <;> decide
  have hb : byteString d = [d] := by
    unfold byteString
    rw [if_pos (by omega)]
  unfold sizeParts
  simp only [upperFirstByte_digit d h, hK.1, hK.2.1, hK.2.2.1, hK.2.2.2, if_false, hb]
  rw [List.dropLast_append_getLast? d hlast]

theorem sizeParts_suffix (s : List Char) (x : Char) (k : Nat)
    (hx : (x, k) ∈ [('K', 3), ('k', 3), ('M', 6), ('m', 6), ('G', 9), ('g', 9), ('T', 12),
      ('t', 12)]) :
    sizeParts (s ++ [x]) x = (k, s) := by
  have hd : (s ++ [x]).dropLast = s := List.dropLast_concat
  simp only [List.mem_cons, Prod.mk.injEq, List.mem_singleton, List.not_mem_nil, or_false]
    at hx
  unfold sizeParts
  rw [hd]
  rcases hx with h | h | h | h | h | h | h | h <;> obtain ⟨rfl, rfl⟩ := h <;> rfl

/-- A product with one of the powers of ten of the suffixes bounds the factor. -/
theorem factor_bounds (n : Int) (k : Nat) (hk : k = 0 ∨ k = 3 ∨ k = 6 ∨ k = 9 ∨ k = 12)
    (hlo : -2 ^ 63 ≤ n * 10 ^ k) (hhi : n * 10 ^ k < 2 ^ 63) : -2 ^ 63 ≤ n ∧ n < 2 ^ 63 := by
  rcases hk with h | h | h | h | h <;> subst h <;> norm_num at hlo hhi <;> omega

/-- The size part of `Config.Options` on a decimal string with or without a suffix. -/
theorem parseMaxSize_value (sgn ds sfx : List Char) (k : Nat)
    (hs : sgn = [] ∨ sgn = ['-'] ∨ sgn = ['+']) (hne : ds ≠ []) (hdig : ds.all isDigit = true)
    (hsfx : (sfx, k) ∈ [([], 0), (['K'], 3), (['k'], 3), (['M'], 6), (['m'], 6), (['G'], 9),
      (['g'], 9), (['T'], 12), (['t'], 12)])
    (hlo : -2 ^ 63 ≤
      (if sgn = ['-'] then -(ofDigits ds : Int) else (ofDigits ds : Int)) * 10 ^ k)
    (hhi : (if sgn = ['-'] then -(ofDigits ds : Int) else (ofDigits ds : Int)) * 10 ^ k <
      2 ^ 63) :
    parseMaxSize (sgn ++ ds ++ sfx) =
      some ((if sgn = ['-'] then -(ofDigits ds : Int) else (ofDigits ds : Int)) * 10 ^ k) := by
  have hk : k = 0 ∨ k = 3 ∨ k = 6 ∨ k = 9 ∨ k = 12 := by
    simp only [List.mem_cons, Prod.mk.injEq, List.mem_singleton, List.not_mem_nil, or_false]
      at hsfx
    omega
  obtain ⟨hn0, hn1⟩ := factor_bounds _ k hk hlo hhi
  have hat := Atoi_signed sgn ds hs hne hdig hn0 hn1
  have hw := wrapInt64_of_range _ hlo hhi
  rw [List.mem_cons] at hsfx
  rcases hsfx with h | h
  · obtain ⟨rfl, rfl⟩ := Prod.mk.inj h
    obtain ⟨d, hd⟩ : ∃ d, ds.getLast? = some d := by
      cases hl : ds.getLast? with
      | none => exact absurd (List.getLast?_eq_none_iff.1 hl) hne
      | some d => exact ⟨d, rfl⟩
    have hdd : isDigit d = true :=
      (List.all_eq_true.1 hdig) d (List.mem_of_getLast?_eq_some hd)
    have hd2 : (sgn ++ ds).getLast? = some d := by
      rw [List.getLast?_append, hd]
      rfl
    unfold parseMaxSize
    rw [List.append_nil, hd2]
    simp only [sizeParts_digit (sgn ++ ds) d hdd hd2, hat]
    rw [hw]
  · obtain ⟨x, hx, rfl⟩ : ∃ x, (x, k) ∈ [('K', 3), ('k', 3), ('M', 6), ('m', 6), ('G', 9),
        ('g', 9), ('T', 12), ('t', 12)] ∧ sfx = [x] := by
      simp only [List.mem_cons, Prod.mk.injEq, List.mem_singleton, List.not_mem_nil,
        or_false] at h ⊢
      rcases h with h | h | h | h | h | h | h | h <;> obtain ⟨rfl, rfl⟩ := h <;>
        exact ⟨_, by simp, rfl⟩
    unfold parseMaxSize
    rw [List.getLast?_concat]
    simp only [sizeParts_suffix (sgn ++ ds) x k hx, hat]
    rw [hw]

/-- C13: for every decimal integer string (an optional sign and digits) with value `n` and
every optional suffix `K`, `M`, `G`, `T` in upper or lower case, `Config.Options` on
`MaxSize` = the string followed by the suffix (with an empty or valid duration) succeeds
and yields `Options.MaxSize` = `n * 10^3`, `n * 10^6`, `n * 10^9`, `n * 10^12`
respectively, and `n` itself without a suffix, whenever that product fits in a signed
64-bit integer; an empty `MaxSize` yields 0. -/
theorem Options_maxSize (c : Config) (sgn ds sfx : List Char) (k : Nat)
    (hdur : c.Duration = [] ∨ ∃ b rest, c.Duration = b :: rest ∧ Valid b.toNat = true)
    (hs : sgn = [] ∨ sgn = ['-'] ∨ sgn = ['+']) (hne : ds ≠ [])
    (hdig : ds.all isDigit = true)
    (hsfx : (sfx, k) ∈ [([], 0), (['K'], 3), (['k'], 3), (['M'], 6), (['m'], 6), (['G'], 9),
      (['g'], 9), (['T'], 12), (['t'], 12)])
    (hlo : -2 ^ 63 ≤ decimalValue sgn ds * 10 ^ k)
    (hhi : decimalValue sgn ds * 10 ^ k < 2 ^ 63) :
    (∃ opt, Config.Options { c with MaxSize := sgn ++ ds ++ sfx } = .ok opt ∧
        opt.MaxSize = decimalValue sgn ds * 10 ^ k) ∧
      (∃ opt, Config.Options { c with MaxSize := [] } = .ok opt ∧ opt.MaxSize = 0) := by
  have hd : ∀ m : List Char,
      ¬ (({ c with MaxSize := m } : Config).Duration ≠ [] ∧
        Valid (match ({ c with MaxSize := m } : Config).Duration with
          | [] => 0
          | b :: _ => b.toNat) = false) := by
    intro m
    rcases hdur with h | ⟨b, rest, h, hv⟩
    · simp [h]
    · simp [h, hv]
  constructor
  · unfold Config.Options
    simp only []
    rw [if_neg (hd _)]
    simp only [parseMaxSize_value sgn ds sfx k hs hne hdig hsfx hlo hhi]
    exact ⟨_, rfl, rfl⟩
  · unfold Config.Options
    simp only []
    rw [if_neg (hd _)]
    exact ⟨_, rfl, rfl⟩

/-- C13, witness: `100` gives 100, `100K` gives 100000, `50M` gives 50000000, `1G` gives
1000000000 and `1T` gives 1000000000000. -/
theorem Options_maxSize_witness :
    ((sizeConfig []).Duration = "M".toList ∧ "100".toList ≠ [] ∧
        ("100".toList).all isDigit = true ∧ -2 ^ 63 ≤ decimalValue [] "100".toList * 10 ^ 3 ∧
        decimalValue [] "100".toList * 10 ^ 3 < 2 ^ 63) ∧
      ((sizeConfig "100".toList).Options.toOption.map (fun o => o.MaxSize) = some 100 ∧
        (sizeConfig "100K".toList).Options.toOption.map (fun o => o.MaxSize) = some 100000 ∧
        (sizeConfig "50M".toList).Options.toOption.map (fun o => o.MaxSize) = some 50000000 ∧
        (sizeConfig "1G".toList).Options.toOption.map (fun o => o.MaxSize) = some 1000000000 ∧
        (sizeConfig "1T".toList).Options.toOption.map (fun o => o.MaxSize) =
          some 1000000000000) ∧
      ∃ opt,
        Config.Options { sizeConfig [] with MaxSize := [] ++ "100".toList ++ ['K'] } = .ok opt ∧
          opt.MaxSize = decimalValue [] "100".toList * 10 ^ 3 :=
  ⟨by decide, by decide,
    (Options_maxSize (sizeConfig []) [] "100".toList ['K'] 3
      (Or.inr ⟨'M', [], rfl, by decide⟩) (Or.inl rfl) (by decide) (by decide) (by decide)
      (by decide) (by decide)).1⟩

/-! ## The calendar round trip -/

theorem leapNext_bound (y r : Int) (hy0 : 0 ≤ y) (hy1 : y ≤ 399) (hr1 : r ≤ 364 + leapNext y) :
    r ≤ 364 ∨ (r = 365 ∧ y % 4 = 3 ∧ (y % 100 ≤ 98 ∨ y = 399)) := by
  unfold leapNext at hr1
  split at hr1
  · rename_i h
    obtain ⟨h1, h2⟩ := h
    rcases h2 with h2 | h2 <;> omega
  · omega

theorem era_last_day (y r : Int) (hy0 : 0 ≤ y) (hy1 : y ≤ 399) (hr0 : 0 ≤ r)
    (hr1 : r ≤ 364 + leapNext y) :
    (365 * y + y / 4 - y / 100 + r) / 146096 = if y = 399 ∧ r = 365 then 1 else 0 := by
  have hb := leapNext_bound y r hy0 hy1 hr1
  split
  · omega
  · rcases hb with hb | ⟨hb1, hb2, hb3 | hb3⟩ <;> omega

theorem era_century (y r : Int) (hy0 : 0 ≤ y) (hy1 : y ≤ 399) (hr0 : 0 ≤ r)
    (hr1 : r ≤ 364 + leapNext y) :
    (365 * y + y / 4 - y / 100 + r) / 36524 - (365 * y + y / 4 - y / 100 + r) / 146096 =
      y / 100 := by
  have hq : y / 100 = 0 ∨ y / 100 = 1 ∨ y / 100 = 2 ∨ y / 100 = 3 := by omega
  have hb := leapNext_bound y r hy0 hy1 hr1
  rw [era_last_day y r hy0 hy1 hr0 hr1]
  split
  · omega
  · rcases hq with h | h | h | h <;> rw [h] <;> rcases hb with hb | ⟨hb1, hb2, hb3 | hb3⟩ <;>
      omega

theorem era_cycle (y r : Int) :
    (365 * y + y / 4 - y / 100 + r) / 1460 =
      y / 4 + (y / 4 + 365 * (y % 4) - y / 100 + r) / 1460 := by
  omega

/-- Day `r` of year `y` of an era is a day of year `y`: the year-of-era formula gives `y`. -/
theorem yearOfEra_forward (y r : Int) (hy0 : 0 ≤ y) (hy1 : y ≤ 399) (hr0 : 0 ≤ r)
    (hr1 : r ≤ 364 + leapNext y) :
    ((365 * y + y / 4 - y / 100 + r) - (365 * y + y / 4 - y / 100 + r) / 1460 +
        (365 * y + y / 4 - y / 100 + r) / 36524 -
        (365 * y + y / 4 - y / 100 + r) / 146096) / 365 = y := by
  have h1 := era_century y r hy0 hy1 hr0 hr1
  have h2 := era_cycle y r
  have hb := leapNext_bound y r hy0 hy1 hr1
  rcases hb with hb | ⟨hb1, hb2, hb3 | hb3⟩ <;> omega

/-- Every day of an era is day `r` of some year `y` of the era. -/
theorem era_day_exists (n : Nat) (hn : n ≤ 146096) :
    ∃ y r : Int, 0 ≤ y ∧ y ≤ 399 ∧ 0 ≤ r ∧ r ≤ 364 + leapNext y ∧
      (n : Int) = 365 * y + y / 4 - y / 100 + r := by
  induction n with
  | zero =>
    refine ⟨0, 0, by omega, by omega, by omega, ?_, by omega⟩
    unfold leapNext
    split <;> omega
  | succ k ih =>
    obtain ⟨y, r, hy0, hy1, hr0, hr1, hk⟩ := ih (by omega)
    by_cases hlt : r < 364 + leapNext y
    · exact ⟨y, r + 1, hy0, hy1, by omega, by omega, by push_cast; omega⟩
    · have hr : r = 364 + leapNext y := by omega
      have hy : y ≤ 398 := by
        by_contra hc
        have h399 : y = 399 := by omega
        subst h399
        have hl : leapNext 399 = 1 := by decide
        rw [hl] at hr
        omega
      have hstep : 365 * (y + 1) + (y + 1) / 4 - (y + 1) / 100 =
          365 * y + y / 4 - y / 100 + 365 + leapNext y := by
        unfold leapNext
        split
        · rename_i h
          obtain ⟨h1, h2⟩ := h
          rcases h2 with h2 | h2 <;> omega
        · rename_i h
          by_cases h4 : (y + 1) % 4 = 0
          · have h100 : (y + 1) % 100 = 0 := by
              by_contra hc
              exact h ⟨h4, Or.inl hc⟩
            omega
          · omega
      refine ⟨y + 1, 0, by omega, by omega, by omega, ?_, by push_cast; omega⟩
      unfold leapNext
      split <;> omega

/-- The year of the era and the day of the March-based year of a day number. -/
theorem era_decomposition (z : Int) :
    0 ≤ yearOfEra z ∧ yearOfEra z ≤ 399 ∧ 0 ≤ dayOfMarchYear z ∧
      dayOfMarchYear z ≤ 364 + leapNext (yearOfEra z) := by
  have hd : 0 ≤ dayOfEra z ∧ dayOfEra z ≤ 146096 := by
    unfold dayOfEra
    omega
  obtain ⟨y, r, hy0, hy1, hr0, hr1, hn⟩ := era_day_exists (dayOfEra z).toNat (by omega)
  have hdoe : dayOfEra z = 365 * y + y / 4 - y / 100 + r := by
    rw [← hn]
    omega
  have hyoe : yearOfEra z = y := by
    unfold yearOfEra
    rw [hdoe]
    exact yearOfEra_forward y r hy0 hy1 hr0 hr1
  have hdoy : dayOfMarchYear z = r := by
    unfold dayOfMarchYear
    rw [hyoe, hdoe]
    omega
  rw [hyoe, hdoy]
  exact ⟨hy0, hy1, hr0, hr1⟩

theorem marchMonth_bounds (z : Int) : 0 ≤ marchMonth z ∧ marchMonth z ≤ 11 := by
  obtain ⟨_, _, h0, h1⟩ := era_decomposition z
  have hl : leapNext (yearOfEra z) ≤ 1 := by
    unfold leapNext
    split <;> omega
  unfold marchMonth
  omega

/-- The day number of the civil date of a day number is that day number. -/
theorem daysFromCivil_civil (z : Int) :
    daysFromCivil (civilYear z) (civilMonth z) (civilDay z) = z := by
  obtain ⟨hy0, hy1, _, _⟩ := era_decomposition z
  have hm := marchMonth_bounds z
  have hdoy : dayOfMarchYear z =
      dayOfEra z - (365 * yearOfEra z + yearOfEra z / 4 - yearOfEra z / 100) := rfl
  have hdoe : dayOfEra z = (z + 719468) % 146097 := rfl
  unfold daysFromCivil civilYear civilMonth civilDay
  simp only []
  split <;> split <;> split <;> omega

/-- The day of the month of a day number exists in its month. -/
theorem civilDay_le_daysIn (z : Int) : civilDay z ≤ daysIn (civilMonth z) (civilYear z) := by
  obtain ⟨hy0, hy1, hd0, hd1⟩ := era_decomposition z
  have hm := marchMonth_bounds z
  have hmp : marchMonth z = (5 * dayOfMarchYear z + 2) / 153 := rfl
  have hl : leapNext (yearOfEra z) =
      if (yearOfEra z + 1) % 4 = 0 ∧
        ((yearOfEra z + 1) % 100 ≠ 0 ∨ (yearOfEra z + 1) % 400 = 0) then 1 else 0 := rfl
  have hleap : isLeap (yearOfEra z + (z + 719468) / 146097 * 400 + 1) = true ↔
      leapNext (yearOfEra z) = 1 := by
    rw [hl]
    simp only [isLeap, Bool.and_eq_true, Bool.or_eq_true, decide_eq_true_eq, bne_iff_ne, ne_eq]
    constructor
    · intro h
      rw [if_pos]
      omega
    · intro h
      split at h
      · omega
      · omega
  have hmcases : marchMonth z = 0 ∨ marchMonth z = 1 ∨ marchMonth z = 2 ∨ marchMonth z = 3 ∨
      marchMonth z = 4 ∨ marchMonth z = 5 ∨ marchMonth z = 6 ∨ marchMonth z = 7 ∨
      marchMonth z = 8 ∨ marchMonth z = 9 ∨ marchMonth z = 10 ∨ marchMonth z = 11 := by omega
  unfold civilDay civilYear civilMonth daysIn
  rcases hmcases with h | h | h | h | h | h | h | h | h | h | h | h <;> rw [h] at hmp ⊢ <;>
    norm_num
  all_goals first | omega | skip
  have hl01 : leapNext (yearOfEra z) = 0 ∨ leapNext (yearOfEra z) = 1 := by
    rw [hl]
    split
    · exact Or.inr rfl
    · exact Or.inl rfl
  rcases hl01 with h0 | h1
  · rw [if_neg (fun hc => by rw [hleap.1 hc] at h0; omega)]
    omega
  · rw [if_pos (hleap.2 h1)]
    omega

/-! ## Reading a timestamp back -/

theorem ofDigits_appendInt (x : Int) (width : Nat) (h : 0 ≤ x) :
    ((ofDigits (appendInt x width) : Nat) : Int) = x := by
  unfold appendInt
  simp only []
  rw [if_neg (by omega), ofDigits_padBody]
  exact Int.natAbs_of_nonneg h

theorem UTC_localSec (t : Time) : t.UTC.localSec = t.sec := by
  have e : t.UTC.localSec = t.sec + t.UTC.offset := rfl
  rw [e, UTC_offset]
  simp

/-- Go `time.Parse` reads the UTC timestamp of `t` back to the Unix second of `t`. -/
theorem parseStamp_utcStamp (t : Time) (h0 : 0 ≤ t.UTC.Year) (h1 : t.UTC.Year ≤ 9999) :
    parseStamp (utcStamp t) = some ⟨t.sec, 0, utcLoc⟩ := by
  obtain ⟨y1, y2, y3, y4, hy, -⟩ :=
    length_four_digits _ (appendInt_fixed t.UTC.Year 4 (by decide) h0 (by norm_num; omega))
  obtain ⟨m1, m2, hm, -⟩ := two_digits_of_bounds _ (Month_bounds t.UTC)
  obtain ⟨d1, d2, hd, -⟩ := two_digits_of_bounds _ (Day_bounds t.UTC)
  obtain ⟨a1, a2, ha, -⟩ := two_digits_of_bounds _ (Hour_bounds t.UTC)
  obtain ⟨b1, b2, hb, -⟩ := two_digits_of_bounds _ (Minute_bounds t.UTC)
  obtain ⟨c1, c2, hc, -⟩ := two_digits_of_bounds _ (Second_bounds t.UTC)
  have vy := ofDigits_appendInt t.UTC.Year 4 h0
  have vm := ofDigits_appendInt t.UTC.Month 2 (Month_bounds t.UTC).1
  have vd := ofDigits_appendInt t.UTC.Day 2 (Day_bounds t.UTC).1
  have va := ofDigits_appendInt t.UTC.Hour 2 (Hour_bounds t.UTC).1
  have vb := ofDigits_appendInt t.UTC.Minute 2 (Minute_bounds t.UTC).1
  have vc := ofDigits_appendInt t.UTC.Second 2 (Second_bounds t.UTC).1
  rw [hy] at vy
  rw [hm] at vm
  rw [hd] at vd
  rw [ha] at va
  rw [hb] at vb
  rw [hc] at vc
  have hstamp : utcStamp t =
      [y1, y2, y3, y4, m1, m2, d1, d2, 'T', a1, a2, b1, b2, c1, c2, 'Z'] := by
    unfold utcStamp
    rw [hy, hm, hd, ha, hb, hc]
    rfl
  have hparse : parseStamp [y1, y2, y3, y4, m1, m2, d1, d2, 'T', a1, a2, b1, b2, c1, c2, 'Z'] =
      if (ofDigits [m1, m2] : Int) < 1 ∨ 12 < (ofDigits [m1, m2] : Int) then none
      else if 24 ≤ (ofDigits [a1, a2] : Int) ∨ 60 ≤ (ofDigits [b1, b2] : Int) ∨
          60 ≤ (ofDigits [c1, c2] : Int) then none
      else if (ofDigits [d1, d2] : Int) < 1 ∨
          daysIn (ofDigits [m1, m2]) (ofDigits [y1, y2, y3, y4]) < (ofDigits [d1, d2] : Int)
        then none
      else some ⟨daysFromCivil (ofDigits [y1, y2, y3, y4]) (ofDigits [m1, m2])
          (ofDigits [d1, d2]) * 86400 + (ofDigits [a1, a2] : Int) * 3600 +
          (ofDigits [b1, b2] : Int) * 60 + (ofDigits [c1, c2] : Int), 0, utcLoc⟩ := rfl
  rw [hstamp, hparse, vy, vm, vd, va, vb, vc]
  have hls := UTC_localSec t
  have hmonth := civilMonth_bounds t.UTC.dayNumber
  have hday := civilDay_bounds t.UTC.dayNumber
  have hvalid := civilDay_le_daysIn t.UTC.dayNumber
  have hinv := daysFromCivil_civil t.UTC.dayNumber
  have hY : t.UTC.Year = civilYear t.UTC.dayNumber := rfl
  have hM : t.UTC.Month = civilMonth t.UTC.dayNumber := rfl
  have hD : t.UTC.Day = civilDay t.UTC.dayNumber := rfl
  have hH : t.UTC.Hour = t.UTC.localSec % 86400 / 3600 := rfl
  have hMi : t.UTC.Minute = t.UTC.localSec % 3600 / 60 := rfl
  have hS : t.UTC.Second = t.UTC.localSec % 60 := rfl
  have hdn : t.UTC.dayNumber = t.UTC.localSec / 86400 := rfl
  rw [if_neg (by omega), if_neg (by omega), if_neg (by rw [hY, hM, hD]; omega)]
  have hsec : daysFromCivil t.UTC.Year t.UTC.Month t.UTC.Day * 86400 + t.UTC.Hour * 3600 +
      t.UTC.Minute * 60 + t.UTC.Second = t.sec := by
    rw [hY, hM, hD, hinv]
    omega
  rw [hsec]

/-! ## The base name of a joined path -/

theorem splitPath_append (a b : List Char) :
    splitPath (a ++ '/' :: b) = splitPath a ++ splitPath b := by
  induction a with
  | nil => simp [splitPath]
  | cons c cs ih =>
    by_cases hc : c = '/'
    · subst hc
      simp [splitPath, ih]
    · obtain ⟨e, es, he⟩ : ∃ e es, splitPath cs = e :: es := by
        cases h : splitPath cs with
        | nil => exact absurd h (splitPath_ne_nil cs)
        | cons e es => exact ⟨e, es, rfl⟩
      rw [List.cons_append, splitPath_cons_ne c _ e (es ++ splitPath b) hc
        (by rw [ih, he]; rfl), splitPath_cons_ne c cs e es hc he]
      rfl

theorem joinPath_append_single (xs : List (List Char)) (f : List Char) :
    joinPath (xs ++ [f]) = f ∨ ∃ q, joinPath (xs ++ [f]) = q ++ '/' :: f := by
  induction xs with
  | nil => exact Or.inl rfl
  | cons x rest ih =>
    right
    rw [List.cons_append, joinPath_cons _ _ (by simp)]
    rcases ih with h | ⟨q, h⟩
    · exact ⟨x, by rw [h]⟩
    · exact ⟨x ++ '/' :: q, by rw [h]; simp⟩

/-- A path that ends in an ordinary element keeps it as its last element when cleaned. -/
theorem Clean_last (es : List (List Char)) (f p : List Char) (hp : p ≠ [])
    (hsplit : splitPath p = es ++ [f]) (h0 : f ≠ []) (h1 : f ≠ ['.']) (h2 : f ≠ ['.', '.']) :
    Clean p = f ∨ ∃ q, Clean p = q ++ '/' :: f := by
  have hstep : ∀ st : List (List Char) × Nat,
      cleanStep (p.head? == some '/') st f = (f :: st.1, st.2) := by
    intro st
    unfold cleanStep
    rw [if_neg (by simp [h0, h1]), if_neg h2]
  have hj := joinPath_append_single
    (List.replicate ((es.foldl (cleanStep (p.head? == some '/')) ([], 0)).2) ['.', '.'] ++
      ((es.foldl (cleanStep (p.head? == some '/')) ([], 0)).1).reverse) f
  unfold Clean
  simp only [if_neg hp, hsplit, List.foldl_append, List.foldl_cons, List.foldl_nil, hstep,
    List.reverse_cons, ← List.append_assoc]
  split
  · rcases hj with h | ⟨q, h⟩
    · right
      exact ⟨[], by rw [h]; rfl⟩
    · right
      exact ⟨'/' :: q, by rw [h]; rfl⟩
  · rw [if_neg (by simp)]
    exact hj

theorem takeWhile_append_stop (p : Char → Bool) (l r : List Char) (hl : ∀ c ∈ l, p c = true)
    (hr : r = [] ∨ ∃ c rest, r = c :: rest ∧ p c = false) : (l ++ r).takeWhile p = l := by
  induction l with
  | nil =>
    rcases hr with h | ⟨c, rest, h, hc⟩
    · subst h
      rfl
    · subst h
      simp [List.takeWhile_cons, hc]
  | cons x xs ih =>
    rw [List.cons_append, List.takeWhile_cons, hl x (List.mem_cons_self _ _),
      ih (fun c hc => hl c (List.mem_cons_of_mem _ hc))]
    rfl

/-- Go `filepath.Base` of a path that ends in a non-empty element without separator. -/
theorem Base_last (q f : List Char) (h0 : f ≠ []) (hf : '/' ∉ f) :
    Base f = f ∧ Base (q ++ '/' :: f) = f := by
  have key : ∀ pre : List Char, (pre = [] ∨ ∃ c rest, pre.reverse = c :: rest ∧
      (c != '/') = false) → Base (pre ++ f) = f := by
    intro pre hpre
    have hne : pre ++ f ≠ [] := by simp [h0]
    obtain ⟨c, rest, hrev⟩ : ∃ c rest, f.reverse = c :: rest := by
      cases h : f.reverse with
      | nil => exact absurd (List.reverse_eq_nil_iff.1 h) h0
      | cons c rest => exact ⟨c, rest, rfl⟩
    have hc : c ≠ '/' := by
      intro e
      apply hf
      rw [← List.mem_reverse, hrev, e]
      exact List.mem_cons_self _ _
    have hdrop : (pre ++ f).reverse.dropWhile (fun c => c == '/') = (pre ++ f).reverse := by
      rw [List.reverse_append, hrev, List.cons_append, List.dropWhile_cons]
      simp [hc]
    have htake : (pre ++ f).reverse.takeWhile (fun c => c != '/') = f.reverse := by
      rw [List.reverse_append]
      apply takeWhile_append_stop
      · intro x hx
        have : x ≠ '/' := fun e => hf (by rw [← e]; exact List.mem_reverse.1 hx)
        simpa using this
      · rcases hpre with h | ⟨c2, rest2, h, hc2⟩
        · left
          rw [h]
          rfl
        · right
          exact ⟨c2, rest2, h, hc2⟩
    unfold Base
    simp only [if_neg hne, hdrop, List.reverse_reverse, htake]
    rw [if_neg h0]
  constructor
  · exact key [] (Or.inl rfl)
  · have := key (q ++ ['/']) (Or.inr ⟨'/', q.reverse, by simp, by decide⟩)
    simpa using this

/-- The base name of `filepath.Join(a, f)` is `f`, for an ordinary element `f`. -/
theorem Base_Join (a f : List Char) (h0 : f ≠ []) (h1 : f ≠ ['.']) (h2 : f ≠ ['.', '.'])
    (hf : '/' ∉ f) : Base (Join a f) = f := by
  have hfs : splitPath f = [] ++ [f] := splitPath_no_sep f hf
  have hb := Base_last
  unfold Join
  by_cases ha : a = []
  · simp only [ha, ne_eq, not_true_eq_false, if_false, h0, not_false_eq_true, if_true]
    rcases Clean_last [] f f h0 hfs h0 h1 h2 with h | ⟨q, h⟩
    · rw [h]
      exact (hb [] f h0 hf).1
    · rw [h]
      exact (hb q f h0 hf).2
  · simp only [ne_eq, ha, not_false_eq_true, if_true]
    have hsp : splitPath (a ++ '/' :: f) = splitPath a ++ [f] := by
      rw [splitPath_append, splitPath_no_sep f hf]
    rcases Clean_last (splitPath a) f (a ++ '/' :: f) (by simp) hsp h0 h1 h2 with h | ⟨q, h⟩
    · rw [h]
      exact (hb [] f h0 hf).1
    · rw [h]
      exact (hb q f h0 hf).2

/-! ## From the rotation name to the catalog entry -/

theorem fmtReMatch_shape (info : List Char) (h : fmtReMatch info = true) :
    info.length = 16 ∧ info.get? 8 = some 'T' ∧ info.get? 15 = some 'Z' := by
  simp only [fmtReMatch, Bool.and_eq_true, decide_eq_true_eq, beq_iff_eq] at h
  exact ⟨h.1.1.1.1, h.1.1.2, h.2⟩

/-- The name test of `Each` on `<stem>_<info><ext>.gz` cuts out `info` and accepts it when
`info` has 16 bytes with `T` at index 8 and `Z` at index 15. -/
theorem eachInfo_accepts (r : Rotator) (stem info : List Char)
    (hstem : (if r.ext ≠ [] then TrimSuffix r.name r.ext else r.name) = stem)
    (hlen : info.length = 16) (h8 : info.get? 8 = some 'T') (h15 : info.get? 15 = some 'Z') :
    eachInfo r (stem ++ '_' :: info ++ r.ext ++ ".gz".toList) = .ok (some info) := by
  have hform : stem ++ '_' :: info ++ r.ext ++ ".gz".toList =
      (stem ++ ['_']) ++ (info ++ (r.ext ++ ".gz".toList)) := by simp
  have hpre : HasPrefix ((stem ++ ['_']) ++ (info ++ (r.ext ++ ".gz".toList)))
      (stem ++ ['_']) = true := by
    unfold HasPrefix
    exact List.isPrefixOf_iff_prefix.2 ⟨_, rfl⟩
  have hsuf : HasSuffix ((stem ++ ['_']) ++ (info ++ (r.ext ++ ".gz".toList)))
      ".gz".toList = true := by
    unfold HasSuffix
    exact List.isSuffixOf_iff_suffix.2 ⟨(stem ++ ['_']) ++ (info ++ r.ext), by simp⟩
  have hgz : (".gz".toList).length = 3 := rfl
  have hlo : ((((stem ++ ['_']).length : Nat) : Int)).toNat = (stem ++ ['_']).length :=
    Int.toNat_ofNat _
  have hhi : ((((stem ++ ['_']) ++ (info ++ (r.ext ++ ".gz".toList))).length : Int) -
      r.ext.length - 3 - ((stem ++ ['_']).length : Nat)).toNat = 16 := by
    simp only [List.length_append, hlen, hgz]
    push_cast
    omega
  have hnot : ¬ ((((stem ++ ['_']) ++ (info ++ (r.ext ++ ".gz".toList))).length : Int) -
      r.ext.length - 3 < ((stem ++ ['_']).length : Nat)) := by
    simp only [List.length_append, hlen, hgz]
    push_cast
    omega
  have hcut : (((stem ++ ['_']) ++ (info ++ (r.ext ++ ".gz".toList))).drop
      (stem ++ ['_']).length).take 16 = info := by
    rw [List.drop_left', List.take_left' hlen]
    rfl
  rw [hform]
  unfold eachInfo
  simp only [hstem, hpre, hsuf, Bool.and_self, if_true, if_neg hnot, hlo, hhi, hcut, h8, h15]

theorem utcStamp_chars (t : Time) : '/' ∉ utcStamp t := by
  have hnum : ∀ (x : Int) (w : Nat), '/' ∉ appendInt x w := by
    intro x w h
    rcases appendInt_chars x w _ h with h1 | h1 <;> revert h1 <;> decide
  unfold utcStamp
  simp [hnum]

/-- The relative name of `NewNameT` for a time with zero offset and a base name without
tokens. -/
theorem NewNameT_name (path : List Char) (opt : Options) (t : Time) (hutc : t.offset = 0)
    (hstem : hasToken (TrimSuffix (Base path) (Ext (Base path))) = false)
    (hext : hasToken (Ext (Base path)) = false) :
    (NewNameT (New path opt) t).1 =
      Join (TFormat t opt.HistoryPath)
        (TrimSuffix (Base path) (Ext (Base path)) ++ '_' :: utcStamp t ++ Ext (Base path)) := by
  have e : (NewNameT (New path opt) t).1 =
      TFormat t (Join opt.HistoryPath
        (TrimSuffix (Base path) (Ext (Base path)) ++ '_' :: T_FORMAT ++ Ext (Base path))) := rfl
  rw [e, TFormat_zero_offset t hutc, TFormat_zero_offset t hutc,
    Join_substTokens _ (by simp [tokenValue]) (tokenValue_path_safe t.UTC),
    substTokens_fileTemplate t _ _ hstem hext]

/-- The base name of the relative name of `NewNameT`. -/
theorem NewNameT_base (path : List Char) (opt : Options) (t : Time) (hutc : t.offset = 0)
    (hstem : hasToken (TrimSuffix (Base path) (Ext (Base path))) = false)
    (hext : hasToken (Ext (Base path)) = false) (hname : '/' ∉ Base path) :
    Base (NewNameT (New path opt) t).1 =
      TrimSuffix (Base path) (Ext (Base path)) ++ '_' :: utcStamp t ++ Ext (Base path) := by
  have hsplit := TrimSuffix_Ext (Base path)
  have hs : '/' ∉ TrimSuffix (Base path) (Ext (Base path)) := by
    intro h
    apply hname
    rw [← hsplit]
    exact List.mem_append_left _ h
  have he : '/' ∉ Ext (Base path) := by
    intro h
    apply hname
    rw [← hsplit]
    exact List.mem_append_right _ h
  have hmem : '_' ∈ TrimSuffix (Base path) (Ext (Base path)) ++ '_' :: utcStamp t ++
      Ext (Base path) := by simp
  rw [NewNameT_name path opt t hutc hstem hext]
  apply Base_Join
  · intro h
    rw [h] at hmem
    simp at hmem
  · intro h
    rw [h] at hmem
    simp at hmem
  · intro h
    rw [h] at hmem
    simp at hmem
  · have hst := utcStamp_chars t
    simp [hs, he, hst]

/-- C14: for a Rotator built by `New` on a path whose base name holds no separator and
whose stem and extension hold no token, and for every UTC instant `t` (zone offset zero)
with a year from 0 to 9999, the file name that rotation produces for `t` (the base name of
`NewNameT(t)` with `.gz` appended) is `<stem>_<timestamp><ext>.gz`; the catalog scan
accepts it and cuts out exactly the timestamp of `t`, which is eight digits, `T`, six
digits, `Z`; and the entry that `History` builds from it carries the instant `t`
truncated to whole seconds. -/
theorem rotation_name_round_trip (path : List Char) (opt : Options) (t : Time)
    (localLoc : Location) (pth : List Char) (hutc : t.offset = 0) (hy0 : 0 ≤ t.UTC.Year)
    (hy1 : t.UTC.Year ≤ 9999)
    (hstem : hasToken (TrimSuffix (Base path) (Ext (Base path))) = false)
    (hext : hasToken (Ext (Base path)) = false) (hname : '/' ∉ Base path) :
    Base (NewNameT (New path opt) t).1 ++ ".gz".toList =
        TrimSuffix (Base path) (Ext (Base path)) ++ '_' :: utcStamp t ++ Ext (Base path) ++
          ".gz".toList ∧
      eachInfo (New path opt) (Base (NewNameT (New path opt) t).1 ++ ".gz".toList) =
        .ok (some (utcStamp t)) ∧
      fmtReMatch (utcStamp t) = true ∧
      History (New path opt) localLoc
          [⟨pth, Base (NewNameT (New path opt) t).1 ++ ".gz".toList⟩] zeroTime zeroTime =
        .ok [{ At := ⟨t.sec, 0, localLoc⟩, root := (New path opt).Options.HistoryDir,
               path := pth }] := by
  have hbase := NewNameT_base path opt t hutc hstem hext hname
  have hmatch := utcStamp_matches t hy0 hy1
  obtain ⟨hlen, h8, h15⟩ := fmtReMatch_shape _ hmatch
  have hpfx : (if (New path opt).ext ≠ [] then
      TrimSuffix (New path opt).name (New path opt).ext else (New path opt).name) =
      TrimSuffix (Base path) (Ext (Base path)) := by
    have hn : (New path opt).name = Base path := rfl
    have he : (New path opt).ext = Ext (Base path) := rfl
    rw [hn, he]
    split
    · rfl
    · rename_i h
      have h2 : Ext (Base path) = [] := by
        by_contra hc
        exact h hc
      have h3 := TrimSuffix_Ext (Base path)
      rw [h2, List.append_nil] at h3
      rw [h2]
      exact h3.symm
  have heach : eachInfo (New path opt) (Base (NewNameT (New path opt) t).1 ++ ".gz".toList) =
      .ok (some (utcStamp t)) := by
    rw [hbase]
    exact eachInfo_accepts (New path opt) _ (utcStamp t) hpfx hlen h8 h15
  refine ⟨by rw [hbase], heach, hmatch, ?_⟩
  have hentry : historyEntry (New path opt) localLoc pth (utcStamp t) =
      some { At := ⟨t.sec, 0, localLoc⟩, root := (New path opt).Options.HistoryDir,
             path := pth } := by
    unfold historyEntry
    rw [if_pos hmatch, parseStamp_utcStamp t hy0 hy1]
    rfl
  have hcollect : collectEntries (New path opt) localLoc
      [⟨pth, Base (NewNameT (New path opt) t).1 ++ ".gz".toList⟩] =
      .ok [{ At := ⟨t.sec, 0, localLoc⟩, root := (New path opt).Options.HistoryDir,
             path := pth }] := by
    simp only [collectEntries, heach, Option.bind, hentry]
  rw [History_eq _ _ _ _ _ _ hcollect]
  have hz : zeroTime.IsZero = true := by decide
  simp [inRange, hz, sortSlice, insertBy]

/-- C14, witness: for base file `app.log` and 2024-01-15 14:30:45 UTC the rotated file is
`app_20240115T143045Z.log.gz`, and the catalog reads it back as that instant. -/
theorem rotation_name_round_trip_witness :
    (afternoonUTC.offset = 0 ∧ 0 ≤ afternoonUTC.UTC.Year ∧ afternoonUTC.UTC.Year ≤ 9999 ∧
        hasToken (TrimSuffix (Base "app.log".toList) (Ext (Base "app.log".toList))) = false ∧
        hasToken (Ext (Base "app.log".toList)) = false ∧ '/' ∉ Base "app.log".toList) ∧
      Base (NewNameT appRotator afternoonUTC).1 ++ ".gz".toList =
        "app_20240115T143045Z.log.gz".toList ∧
      History appRotator utcLoc
          [⟨"2024/01/app_20240115T143045Z.log.gz".toList,
            Base (NewNameT appRotator afternoonUTC).1 ++ ".gz".toList⟩] zeroTime zeroTime =
        .ok [entryJan15] :=
  ⟨by decide, by decide,
    (rotation_name_round_trip "app.log".toList historyOptions afternoonUTC utcLoc
      "2024/01/app_20240115T143045Z.log.gz".toList (by decide) (by decide) (by decide)
      (by decide) (by decide) (by decide)).2.2.2⟩

end Fwrot
